import Mathlib

/-!
Verification development for the MCP server registry's normalization,
validation, deduplication and merge subsystem.

The definitions below are a shallow embedding of the TypeScript sources:
  * `DataProcessor.normalizeName`, `DataProcessor.normalizeRepositoryUrl`,
    `DataProcessor.sanitizeText`, `DataProcessor.validateRequired`,
    `DataProcessor.validateUrls`, `DataProcessor.calculatePopularityScore`
    and `DataProcessor.processOne` from `src/processor.ts`;
  * the `Deduplicator` class (state, `deduplicate`, `mergeServers`) from
    the deduplicator module;
  * the record-enhancement step of `MCPRegistryActor.run` from `src/main.ts`.

Modelling conventions:
  * JavaScript strings are Lean `String`/`List Char` (code points; the
    sources only rely on this for ASCII data);
  * JavaScript numbers are `Rat` (the claims under study never depend on
    binary floating-point rounding);
  * JavaScript `Map` objects are association lists with JS `Map.set`
    semantics (update in place, otherwise append);
  * mutation of a record object stored in the map is modelled by updating
    the map entry; the array returned by `deduplicate` holds references to
    the stored objects, so it is modelled as the list of composite keys
    dereferenced through the final map;
  * `String.prototype.localeCompare` (used for the version merge rule) is
    locale/ICU dependent, hence it is a parameter `lc` of the merge;
  * `new Date()` / `Date.parse` readings are explicit parameters.
-/

namespace MCPRegistry

/-! ### Character classes (JS regex `\w`, `\s`, ASCII case) -/

/-- ASCII lowercase letter, `a`–`z`. -/
def isAsciiLower (c : Char) : Bool := 'a' ≤ c && c ≤ 'z'

/-- ASCII uppercase letter, `A`–`Z`. -/
def isAsciiUpper (c : Char) : Bool := 'A' ≤ c && c ≤ 'Z'

/-- ASCII digit, `0`–`9`. -/
def isAsciiDigit (c : Char) : Bool := '0' ≤ c && c ≤ '9'

/-- ASCII letter. -/
def isAsciiAlpha (c : Char) : Bool := isAsciiLower c || isAsciiUpper c

/-- JS regex `\w`: `[A-Za-z0-9_]`. -/
def isWordChar (c : Char) : Bool := isAsciiAlpha c || isAsciiDigit c || c = '_'

/-- Per-character model of `String.prototype.toLowerCase` (exact on ASCII,
which is all the normalizers rely on). -/
def jsLowerChar (c : Char) : Char :=
  if isAsciiUpper c then Char.ofNat (c.toNat + 32) else c

/-- Model of `String.prototype.toLowerCase` over the character list. -/
def jsLower (l : List Char) : List Char := l.map jsLowerChar

/-! ### Regex-replacement helpers -/

/-- Global replacement of every maximal run of characters satisfying `p`
by the single character `r` (JS `str.replace(/[--]+/g, "-")`-style).
The `prev` flag records whether the previous character was part of a run. -/
def collapseRunsAux (p : Char → Bool) (r : Char) : List Char → Bool → List Char
  | [], _ => []
  | c :: cs, prev =>
    if p c then
      if prev then collapseRunsAux p r cs true
      else r :: collapseRunsAux p r cs true
    else c :: collapseRunsAux p r cs false

/-- Replace every maximal `p`-run by the single character `r`. -/
def collapseRuns (p : Char → Bool) (r : Char) (l : List Char) : List Char :=
  collapseRunsAux p r l false

/-- JS `str.replace(pat, repl)` with a *string* pattern: replace only the
leftmost occurrence (our call sites always use nonempty patterns). -/
def replaceFirst (pat repl : List Char) : List Char → List Char
  | [] => []
  | c :: cs =>
    if pat.isPrefixOf (c :: cs) then repl ++ (c :: cs).drop pat.length
    else c :: replaceFirst pat repl cs

/-- JS `str.replace(/pat$/, '')` for a literal suffix `pat`: strip one
trailing occurrence. -/
def stripSuffix (pat : List Char) (l : List Char) : List Char :=
  if pat.isSuffixOf l then l.take (l.length - pat.length) else l

/-- Strip a leading run of characters satisfying `p`. -/
def trimLeftP (p : Char → Bool) (l : List Char) : List Char := l.dropWhile p

/-- Strip a trailing run of characters satisfying `p`. -/
def trimRightP (p : Char → Bool) (l : List Char) : List Char :=
  (l.reverse.dropWhile p).reverse

/-! ### `DataProcessor.normalizeName` (`src/processor.ts` 80–87) -/

/-- `.replace(/[^\w\-]/g, '-')`: every character that is neither a word
character nor a hyphen becomes a hyphen. -/
def replaceNonWord (l : List Char) : List Char :=
  l.map (fun c => if isWordChar c || c = '-' then c else '-')

/-- `.replace(/[\s_]+/g, '-')`: runs of whitespace/underscores become one
hyphen. -/
def collapseWsUnderscore (l : List Char) : List Char :=
  collapseRuns (fun c => c.isWhitespace || c = '_') '-' l

/-- The `.replace` collapsing every run of one-or-more hyphens (regex
`-+`, global) into a single hyphen. -/
def collapseHyphens (l : List Char) : List Char :=
  collapseRuns (fun c => c = '-') '-' l

/-- `.replace(/^-+|-+$/g, '')`: trim leading and trailing hyphen runs. -/
def trimHyphens (l : List Char) : List Char :=
  trimRightP (fun c => c = '-') (trimLeftP (fun c => c = '-') l)

/-- `DataProcessor.normalizeName` on character lists: lowercase, replace
non-word characters by hyphens, replace whitespace/underscore runs by
hyphens, collapse hyphen runs, trim hyphens. -/
def normalizeNameL (l : List Char) : List Char :=
  trimHyphens (collapseHyphens (collapseWsUnderscore (replaceNonWord (jsLower l))))

namespace DataProcessor

/-- `DataProcessor.normalizeName` (`src/processor.ts` 80–87). -/
def normalizeName (name : String) : String :=
  ⟨normalizeNameL name.data⟩

end DataProcessor

example : DataProcessor.normalizeName "MCP Server" = "mcp-server" := by decide
example : DataProcessor.normalizeName "mcp_server_test" = "mcp-server-test" := by decide
example : DataProcessor.normalizeName "--Héllo__ World!--" = "h-llo-world" := by decide
example : DataProcessor.normalizeName "" = "" := by decide

/-! ### `DataProcessor.normalizeRepositoryUrl` (`src/processor.ts` 97–121) -/

/-- Does `l` contain `pat` as an infix (JS `String.prototype.includes`)? -/
def containsSub (pat : List Char) : List Char → Bool
  | [] => pat.isPrefixOf []
  | c :: cs => pat.isPrefixOf (c :: cs) || containsSub pat cs

/-- The body of `normalizeRepositoryUrl` after the `!url` guard, on
character lists.  Mirrors `src/processor.ts` 103–117: lowercase, strip one
trailing `.git`; for URLs containing `github.com` remove the first
occurrence of `https://`, then of `http://`, then of `git@github.com:`,
then one trailing `.git` and one trailing slash; finally strip one
trailing slash.  (The surrounding `try`/`catch` is dead: none of these
string operations throws.) -/
def normalizeRepositoryUrlL (l : List Char) : List Char :=
  let n1 := jsLower l
  let n2 := stripSuffix ".git".data n1
  let n3 :=
    if containsSub "github.com".data n2 then
      let a := replaceFirst "https://".data [] n2
      let b := replaceFirst "http://".data [] a
      let c := replaceFirst "git@github.com:".data [] b
      stripSuffix "/".data (stripSuffix ".git".data c)
    else n2
  stripSuffix "/".data n3

namespace DataProcessor

/-- `DataProcessor.normalizeRepositoryUrl` (`src/processor.ts` 97–121).
The `url?: string` parameter with its `if (!url) return undefined` guard
is modelled by returning `none` for the empty string; callers that can
pass `undefined` test truthiness first. -/
def normalizeRepositoryUrl (url : String) : Option String :=
  if url = "" then none
  else some ⟨normalizeRepositoryUrlL url.data⟩

end DataProcessor

example : DataProcessor.normalizeRepositoryUrl "https://GitHub.com/X/Y.git" =
    some "github.com/x/y" := by decide
example : DataProcessor.normalizeRepositoryUrl "git@github.com:x/y" =
    some "x/y" := by decide
example : DataProcessor.normalizeRepositoryUrl "https://gitlab.com/a/b/" =
    some "https://gitlab.com/a/b" := by decide

/-! ### Data model (`src/types.ts`) -/

/-- The origin tag of an observation: `'github' | 'npm' | 'pypi'`. -/
inductive Source where
  | github
  | npm
  | pypi
deriving DecidableEq, Repr

/-- The string form of a source tag, used to build composite keys. -/
def Source.key : Source → String
  | .github => "github"
  | .npm => "npm"
  | .pypi => "pypi"

/-- `SourceUrls`: mapping of sources to the URLs they were discovered at. -/
structure SourceUrls where
  github : Option String := none
  npm : Option String := none
  pypi : Option String := none
deriving DecidableEq, Repr

/-- `DownloadStats`: per-origin download counts.  The TS interface declares
only `npm` and `pypi`; a `github` slot is included because the enhancement
step in `src/main.ts` builds `{ [server.source]: server.downloads }`, which
at runtime can key the object by `github` as well. -/
structure DownloadStats where
  github : Option Rat := none
  npm : Option Rat := none
  pypi : Option Rat := none
deriving DecidableEq, Repr

/-- `CompatibilityInfo.status`. -/
inductive CompatStatus where
  | verified
  | likely
  | unknown
deriving DecidableEq, Repr

/-- `CompatibilityInfo`. -/
structure CompatibilityInfo where
  client : String
  status : CompatStatus
  notes : Option String := none
deriving DecidableEq, Repr

/-- `InstallCommand`. -/
structure InstallCommand where
  command : String
  pkg : String
  version : Option String := none
deriving DecidableEq, Repr

/-- `InstallationInstructions`. -/
structure InstallationInstructions where
  npm : Option InstallCommand := none
  pypi : Option (List InstallCommand) := none
  configExample : Option String := none
deriving DecidableEq, Repr

/-- `ValidationFailure` (`src/types.ts`). -/
structure ValidationFailure where
  timestamp : String
  field : String
  value : String
  reason : String
deriving DecidableEq, Repr

/-- `ServerMetadata`: raw per-observation record produced by the scrapers
and consumed by `DataProcessor.process`.  `downloads` is the raw
registry-reported count (a JS number, modelled as `Rat`). -/
structure ServerMetadata where
  name : String
  description : String
  version : String
  sourceUrl : String
  source : Source
  stars : Option Rat := none
  forks : Option Rat := none
  downloads : Option Rat := none
  license : Option String := none
  author : Option String := none
  repository : Option String := none
  keywords : Option (List String) := none
  readme : Option String := none
  lastUpdated : String
deriving DecidableEq, Repr

/-- `ServerRecord`: the enhanced record flowing into the deduplicator. -/
structure ServerRecord where
  name : String
  description : String
  version : String
  sourceUrl : String
  sourceUrls : SourceUrls
  source : Source
  stars : Option Rat := none
  forks : Option Rat := none
  downloads : Option DownloadStats := none
  license : Option String := none
  author : Option String := none
  repository : Option String := none
  keywords : Option (List String) := none
  readme : Option String := none
  lastUpdated : String
  isActive : Bool
  categories : List String
  compatibility : List CompatibilityInfo
  installationInstructions : InstallationInstructions
  normalizedName : String
deriving DecidableEq, Repr

/-- Update mode of a run. -/
inductive UpdateMode where
  | full
  | incremental
deriving DecidableEq, Repr

/-- `DeduplicationState` (`src/types.ts`): JS `Map`s are modelled as
association lists with `Map.set` semantics. -/
structure DeduplicationState where
  runId : String
  serverMap : List (String × ServerRecord)
  normalizedNames : List (String × String)
  repositoryUrls : List (String × String)
  lastRunTimestamp : String
  updateMode : UpdateMode
deriving DecidableEq, Repr

/-! ### Association-list model of JS `Map` -/

/-- `Map.get`: value of the first (unique) entry with the given key. -/
def lookupA {α : Type} : List (String × α) → String → Option α
  | [], _ => none
  | p :: ps, k => if p.1 = k then some p.2 else lookupA ps k

/-- `Map.has`. -/
def hasA {α : Type} (m : List (String × α)) (k : String) : Bool :=
  (lookupA m k).isSome

/-- `Map.set`: update the existing entry in place, else append. -/
def setA {α : Type} : List (String × α) → String → α → List (String × α)
  | [], k, v => [(k, v)]
  | p :: ps, k, v => if p.1 = k then (k, v) :: ps else p :: setA ps k v

/-! ### `DataProcessor.sanitizeText` (`src/processor.ts` 205–220) -/

/-- The JS character class of ASCII control characters `\x00`–`\x1F` and
`\x7F`. -/
def isCtrlChar (c : Char) : Bool := c.toNat ≤ 31 || c.toNat = 127

/-- `sanitizeText` on character lists: each control character becomes a
space, whitespace runs collapse to one space, then trim. -/
def sanitizeTextL (l : List Char) : List Char :=
  trimRightP Char.isWhitespace
    (trimLeftP Char.isWhitespace
      (collapseRuns Char.isWhitespace ' '
        (l.map fun c => if isCtrlChar c then ' ' else c)))

namespace DataProcessor

/-- `DataProcessor.sanitizeText`; the `if (!text) return ''` guard maps the
empty string to itself. -/
def sanitizeText (text : String) : String :=
  if text = "" then "" else ⟨sanitizeTextL text.data⟩

end DataProcessor

example : DataProcessor.sanitizeText "a\x00b   c" = "a b c" := by decide

/-! ### Validation (`src/processor.ts` 159–234) -/

/-- RFC 3986 scheme characters. -/
def isSchemeChar (c : Char) : Bool :=
  isAsciiAlpha c || isAsciiDigit c || c = '+' || c = '-' || c = '.'

namespace DataProcessor

/-- Modelled from the spec: `isValidUrl` wraps `new URL(url)`, a WHATWG
URL-parser platform builtin that is not part of this repository; the spec
only requires rejecting input that "does not parse as a well-formed URL".
The model accepts exactly the strings that start with an RFC 3986 scheme
followed by a colon. -/
def isValidUrl (url : String) : Bool :=
  match url.data with
  | [] => false
  | c :: cs => isAsciiAlpha c && ((c :: cs).dropWhile isSchemeChar).head? = some ':'

/-- `DataProcessor.recordValidationFailure` (`src/processor.ts` 225–234):
appends one entry to the instance's `validationFailures` array.  The
`new Date().toISOString()` reading is the `now` parameter. -/
def recordValidationFailure (now serverName field reason : String)
    (vf : List ValidationFailure) : List ValidationFailure :=
  vf ++ [{ timestamp := now, field := field, value := serverName, reason := reason }]

/-- Model of JS `String.prototype.trim`: strip leading and trailing
whitespace. -/
def jsTrim (s : String) : String :=
  ⟨trimRightP Char.isWhitespace (trimLeftP Char.isWhitespace s.data)⟩

/-- JS `!value || (typeof value === 'string' && value.trim() === '')` for a
string field. -/
def isBlank (s : String) : Bool := s = "" || jsTrim s = ""

/-- `DataProcessor.validateRequired` (`src/processor.ts` 159–171): checks
`name`, `description`, `version`, `sourceUrl` in order, recording the first
failure. -/
def validateRequired (now : String) (server : ServerMetadata)
    (vf : List ValidationFailure) : Bool × List ValidationFailure :=
  if isBlank server.name then
    (false, recordValidationFailure now server.name "name" "missing or empty" vf)
  else if isBlank server.description then
    (false, recordValidationFailure now server.name "description" "missing or empty" vf)
  else if isBlank server.version then
    (false, recordValidationFailure now server.name "version" "missing or empty" vf)
  else if isBlank server.sourceUrl then
    (false, recordValidationFailure now server.name "sourceUrl" "missing or empty" vf)
  else (true, vf)

/-- `DataProcessor.validateUrls` (`src/processor.ts` 176–188): an invalid
`sourceUrl` rejects the record and records a validation failure; a present
but invalid `repository` only logs a console warning and clears the field
(`server.repository = undefined`) — nothing is added to
`validationFailures` in that case. -/
def validateUrls (now : String) (server : ServerMetadata)
    (vf : List ValidationFailure) : Bool × ServerMetadata × List ValidationFailure :=
  if ¬ isValidUrl server.sourceUrl then
    (false, server, recordValidationFailure now server.name "sourceUrl" "invalid URL format" vf)
  else
    match server.repository with
    | some rep =>
      if rep ≠ "" && ¬ isValidUrl rep then (true, { server with repository := none }, vf)
      else (true, server, vf)
    | none => (true, server, vf)

end DataProcessor

/-! ### Popularity score (`src/processor.ts` 133–154) -/

/-- The clock and date parser used by `daysSinceLastUpdate`: `new Date()`
readings and `new Date(string).getTime()` parsing are platform effects,
passed explicitly (times in milliseconds). -/
structure Clock where
  nowMs : Rat
  dateMs : String → Rat

/-- Modelled `Math.log10`: exact on integer powers of ten (the only inputs
any claim below evaluates it at); elsewhere it returns the integer part of
the base-10 logarithm rather than the irrational float value. -/
def ratLog10 (q : Rat) : Rat :=
  if 1 ≤ q then (Nat.log 10 q.floor.toNat : Rat) else 0

/-- `Math.round`: round half toward positive infinity. -/
def jsRound (q : Rat) : Rat := ((q + 1/2).floor : Rat)

namespace DataProcessor

/-- `DataProcessor.daysSinceLastUpdate` (`src/processor.ts` 149–154). -/
def daysSinceLastUpdate (clock : Clock) (lastUpdated : String) : Rat :=
  (((clock.nowMs - clock.dateMs lastUpdated) / (1000 * 60 * 60 * 24)).floor : Rat)

/-- `DataProcessor.calculatePopularityScore` (`src/processor.ts` 133–144):
`stars*0.4 + log10(downloads+1)*0.3 + recency*0.3`, rounded to two decimal
digits, where `recency = max(0, 1 - daysSinceUpdate/365)`. -/
def calculatePopularityScore (clock : Clock) (server : ServerMetadata) : Rat :=
  let stars := server.stars.getD 0
  let downloads := server.downloads.getD 0
  let daysSinceUpdate := daysSinceLastUpdate clock server.lastUpdated
  let recencyFactor := max 0 (1 - daysSinceUpdate / 365)
  let score := stars * (0.4 : Rat) + ratLog10 (downloads + 1) * (0.3 : Rat)
    + recencyFactor * (0.3 : Rat)
  jsRound (score * 100) / 100

/-- One iteration of the loop in `DataProcessor.process`
(`src/processor.ts` 29–65): validate required fields, validate URLs,
sanitize text fields (truncating the README to 500 KiB), sanitize the
name, overwrite `downloads` with the popularity score, default the
version.  Returns `none` when the record is dropped.  The unused local
`daysSinceUpdate` (line 58) and the `try`/`catch` (none of the modelled
operations throws) are omitted. -/
def processOne (clock : Clock) (now : String) (server : ServerMetadata)
    (vf : List ValidationFailure) : Option ServerMetadata × List ValidationFailure :=
  match validateRequired now server vf with
  | (false, vf1) => (none, vf1)
  | (true, vf1) =>
    match validateUrls now server vf1 with
    | (false, _, vf2) => (none, vf2)
    | (true, s1, vf2) =>
      let s2 := { s1 with description := sanitizeText s1.description }
      let s3 :=
        match s2.readme with
        | some r => if r ≠ "" then
              { s2 with readme := some ⟨(sanitizeText r).data.take (500 * 1024)⟩ }
            else s2
        | none => s2
      let s4 :=
        match s3.keywords with
        | some ks => { s3 with keywords := some (ks.map sanitizeText) }
        | none => s3
      let s5 := { s4 with name := sanitizeText s4.name }
      let s6 := { s5 with downloads := some (calculatePopularityScore clock s5) }
      let s7 := if s6.version = "" then { s6 with version := "1.0.0" } else s6
      (some s7, vf2)

/-- `DataProcessor.process` (`src/processor.ts` 26–69) over a list of
records, threading the `validationFailures` array. -/
def process (clock : Clock) (now : String) (servers : List ServerMetadata)
    (vf : List ValidationFailure) : List ServerMetadata × List ValidationFailure :=
  servers.foldl
    (fun acc server =>
      match processOne clock now server acc.2 with
      | (some out, vf') => (acc.1 ++ [out], vf')
      | (none, vf') => (acc.1, vf'))
    ([], vf)

end DataProcessor

/-! ### Record enhancement (`src/main.ts` 99–120) -/

/-- The classification, compatibility and installation-instruction
generators used by the enhancement loop; they are independent modules
that never touch the fields under study, so they are parameters. -/
structure Enrichers where
  categorize : ServerMetadata → List String
  checkCompat : ServerMetadata → List CompatibilityInfo
  genInstall : ServerMetadata → InstallationInstructions

/-- `{ [server.source]: server.sourceUrl }`. -/
def singleSourceUrls (src : Source) (url : String) : SourceUrls :=
  match src with
  | .github => { github := some url }
  | .npm => { npm := some url }
  | .pypi => { pypi := some url }

/-- `{ [server.source]: server.downloads }`. -/
def singleDownloads (src : Source) (d : Rat) : DownloadStats :=
  match src with
  | .github => { github := some d }
  | .npm => { npm := some d }
  | .pypi => { pypi := some d }

/-- The record constructed for each processed server in
`MCPRegistryActor.run` (`src/main.ts` 99–120).  `downloads` is wrapped as
`server.downloads ? { [server.source]: server.downloads } : undefined`:
by this point `server.downloads` holds the popularity score, and a zero
score is falsy, yielding `undefined`. -/
def enhanceRecord (enr : Enrichers) (clock : Clock) (server : ServerMetadata) : ServerRecord :=
  let daysSinceUpdate := DataProcessor.daysSinceLastUpdate clock server.lastUpdated
  { name := server.name
    description := server.description
    version := server.version
    sourceUrl := server.sourceUrl
    sourceUrls := singleSourceUrls server.source server.sourceUrl
    source := server.source
    stars := server.stars
    forks := server.forks
    downloads :=
      match server.downloads with
      | some d => if d ≠ 0 then some (singleDownloads server.source d) else none
      | none => none
    license := server.license
    author := server.author
    repository := server.repository
    keywords := server.keywords
    readme := server.readme
    lastUpdated := server.lastUpdated
    isActive := daysSinceUpdate ≤ 180
    categories := enr.categorize server
    compatibility := enr.checkCompat server
    installationInstructions := enr.genInstall server
    normalizedName := DataProcessor.normalizeName server.name }

/-! ### The `Deduplicator` -/

namespace Deduplicator

/-- The `Deduplicator` constructor: fresh empty maps.  The
`new Date().toISOString()` reading is the `ts` parameter. -/
def init (runId ts : String) (updateMode : UpdateMode := .full) : DeduplicationState :=
  { runId := runId
    serverMap := []
    normalizedNames := []
    repositoryUrls := []
    lastRunTimestamp := ts
    updateMode := updateMode }

/-- `mergeServers`, stars/forks rule (lines 128–132): prefer GitHub for
stars and forks. -/
def mergeStars (existing incoming : ServerRecord) : ServerRecord :=
  if incoming.source = Source.github then
    let ea := if incoming.stars.isSome then { existing with stars := incoming.stars } else existing
    if incoming.forks.isSome then { ea with forks := incoming.forks } else ea
  else existing

/-- `mergeServers`, downloads rule (lines 134–146):
`if (!existing.downloads) existing.downloads = {}`, then copy the
incoming per-origin count for `npm`/`pypi` sources.  `if (npmDownloads)`
is a truthiness test, so a zero count is not copied.  The
`typeof incoming.downloads === 'number'` arms (lines 140, 143) guard
against a raw numeric `downloads`; on the declared `ServerRecord` type
`downloads` is an object, so those arms are unreachable and the `.npm` /
`.pypi` projections are modelled directly. -/
def mergeDownloads (existing incoming : ServerRecord) : ServerRecord :=
  let dl0 := existing.downloads.getD {}
  let e2 := { existing with downloads := some dl0 }
  match incoming.downloads with
  | none => e2
  | some idl =>
    match incoming.source with
    | .npm =>
      match idl.npm with
      | some x => if x ≠ 0 then { e2 with downloads := some { dl0 with npm := some x } } else e2
      | none => e2
    | .pypi =>
      match idl.pypi with
      | some x => if x ≠ 0 then { e2 with downloads := some { dl0 with pypi := some x } } else e2
      | none => e2
    | .github => e2

/-- `mergeServers`, README rule (lines 148–151): keep the longer README. -/
def mergeReadme (existing incoming : ServerRecord) : ServerRecord :=
  match incoming.readme with
  | some ir =>
    if ir ≠ "" &&
        (match existing.readme with
         | none => true
         | some er => er = "" || er.length < ir.length) then
      { existing with readme := some ir }
    else existing
  | none => existing

/-- `mergeServers`, source-URL rule (lines 153–163): keyed insert by the
incoming origin.  The `!existing.sourceUrls` fixup (line 154) is dead
because `sourceUrls` is a required field of `ServerRecord`. -/
def mergeSourceUrls (existing incoming : ServerRecord) : ServerRecord :=
  match incoming.source with
  | .github => { existing with sourceUrls := { existing.sourceUrls with github := some incoming.sourceUrl } }
  | .npm => { existing with sourceUrls := { existing.sourceUrls with npm := some incoming.sourceUrl } }
  | .pypi => { existing with sourceUrls := { existing.sourceUrls with pypi := some incoming.sourceUrl } }

/-- `mergeServers`, version rule (lines 165–168):
`incoming.version && incoming.version.localeCompare(existing.version || '') > 0`.
`lc` models `String.prototype.localeCompare`, which is locale/ICU
dependent and therefore a parameter; `existing.version || ''` is the
identity on strings (it maps `''` to `''`). -/
def mergeVersion (lc : String → String → Int) (existing incoming : ServerRecord) : ServerRecord :=
  if incoming.version ≠ "" && lc incoming.version existing.version > 0 then
    { existing with version := incoming.version }
  else existing

/-- `mergeServers`, timestamp rule (lines 170–173): JS string `>` is
lexicographic code-unit comparison. -/
def mergeLastUpdated (existing incoming : ServerRecord) : ServerRecord :=
  if incoming.lastUpdated ≠ "" && existing.lastUpdated < incoming.lastUpdated then
    { existing with lastUpdated := incoming.lastUpdated }
  else existing

/-- `Deduplicator.mergeServers` (merge `incoming` into `existing`, lines
127–176): the field rules applied in source order.  The record is mutated
in place in the source; the model returns the updated record. -/
def mergeServers (lc : String → String → Int)
    (existing incoming : ServerRecord) : ServerRecord :=
  mergeLastUpdated
    (mergeVersion lc
      (mergeSourceUrls
        (mergeReadme
          (mergeDownloads
            (mergeStars existing incoming) incoming) incoming) incoming) incoming) incoming

end Deduplicator

/-- `this.processor.normalizeName(server.normalizedName || server.name)`
(line 78 of `deduplicate`). -/
def recordNameKey (server : ServerRecord) : String :=
  DataProcessor.normalizeName
    (if server.normalizedName ≠ "" then server.normalizedName else server.name)

/-- `server.repository ? this.processor.normalizeRepositoryUrl(server.repository)
: undefined` (lines 79–81 of `deduplicate`).  May be `some ""` (e.g. for
`repository = "/"`); every use in `deduplicate` re-tests truthiness. -/
def recordRepoUrl (server : ServerRecord) : Option String :=
  match server.repository with
  | some rep => if rep ≠ "" then DataProcessor.normalizeRepositoryUrl rep else none
  | none => none

/-- The collapsed repository key: `recordRepoUrl` with the falsy empty
string identified with absence (this is how `deduplicate` consumes it). -/
def recordRepoKey (server : ServerRecord) : Option String :=
  match recordRepoUrl server with
  | some ru => if ru = "" then none else some ru
  | none => none

/-- The composite key `${server.source}:${normalized}` (line 112). -/
def compositeKey (server : ServerRecord) : String :=
  server.source.key ++ ":" ++ recordNameKey server

/-- The store after the "not a duplicate" arm of `deduplicate` (lines
111–118): the record is stored under the composite key, which is
registered in `normalizedNames` and — `if (repoUrl)` — in
`repositoryUrls`. -/
def insertState (st : DeduplicationState) (server : ServerRecord) : DeduplicationState :=
  { st with
    serverMap := setA st.serverMap (compositeKey server) server
    normalizedNames := setA st.normalizedNames (recordNameKey server) (compositeKey server)
    repositoryUrls :=
      match recordRepoUrl server with
      | some ru => if ru ≠ "" then setA st.repositoryUrls ru (compositeKey server) else st.repositoryUrls
      | none => st.repositoryUrls }

namespace Deduplicator

/-- The tail of one `deduplicate` iteration after the normalized-name
check did not `continue` (lines 97–121): check for a duplicate by
repository URL (with the JS truthiness tests `if (repoUrl && ...)` and
`if (existingKey)` as `≠ ""` guards), otherwise insert the record and
emit its composite key. -/
def dedupeStepRepo (lc : String → String → Int) (st : DeduplicationState)
    (emitted : List String) (dups : Nat) (server : ServerRecord) :
    DeduplicationState × List String × Nat :=
  let inserted := (insertState st server, emitted ++ [compositeKey server], dups)
  match recordRepoUrl server with
  | some ru =>
    if ru ≠ "" && hasA st.repositoryUrls ru then
      match lookupA st.repositoryUrls ru with
      | some existingKey =>
        if existingKey ≠ "" then
          match lookupA st.serverMap existingKey with
          | some existing =>
            ({ st with serverMap := setA st.serverMap existingKey (mergeServers lc existing server) },
             emitted, dups + 1)
          | none => inserted
        else inserted
      | none => inserted
    else inserted
  | none => inserted

/-- One iteration of the `for` loop of `Deduplicator.deduplicate` (lines
77–121).  The accumulator carries the store, the composite keys of the
records pushed to `deduplicated` so far (the array aliases the stored
objects, so it is represented by their keys), and `duplicatesRemoved`.
First the check for a duplicate by normalized name (lines 83–95, with the
JS truthiness test `if (existingKey)` as a `≠ ""` guard); every branch
that does not `continue` falls through to the repository check. -/
def dedupeStep (lc : String → String → Int)
    (acc : DeduplicationState × List String × Nat) (server : ServerRecord) :
    DeduplicationState × List String × Nat :=
  let (st, emitted, dups) := acc
  let normalized := recordNameKey server
  if hasA st.normalizedNames normalized then
    match lookupA st.normalizedNames normalized with
    | some existingKey =>
      if existingKey ≠ "" then
        match lookupA st.serverMap existingKey with
        | some existing =>
          ({ st with serverMap := setA st.serverMap existingKey (mergeServers lc existing server) },
           emitted, dups + 1)
        | none => dedupeStepRepo lc st emitted dups server
      else dedupeStepRepo lc st emitted dups server
    | none => dedupeStepRepo lc st emitted dups server
  else dedupeStepRepo lc st emitted dups server

/-- `Deduplicator.deduplicate` (lines 73–125), returning the final store,
the composite keys of the emitted records, and `duplicatesRemoved`. -/
def deduplicate (lc : String → String → Int) (st : DeduplicationState)
    (servers : List ServerRecord) : DeduplicationState × List String × Nat :=
  servers.foldl (dedupeStep lc) (st, [], 0)

/-- The value actually returned by `deduplicate`: the `deduplicated` array
holds references to the objects stored in `serverMap`, so at return time
its elements are the *final* stored records for the emitted keys. -/
def dedupeRecords (lc : String → String → Int) (st : DeduplicationState)
    (servers : List ServerRecord) : DeduplicationState × List ServerRecord × Nat :=
  let r := deduplicate lc st servers
  (r.1, r.2.1.filterMap (lookupA r.1.serverMap), r.2.2)

/-- Iterated `deduplicate` calls against one store. -/
def runCalls (lc : String → String → Int) (st : DeduplicationState) :
    List (List ServerRecord) → DeduplicationState
  | [] => st
  | l :: ls => runCalls lc (deduplicate lc st l).1 ls

end Deduplicator

/-! ### Specification-side dedupe step (spec §4.5)

Written from the spec's words for the refinement claim: per incoming
record, (2) if the normalized-name key already maps to an existing record,
merge and do not emit; (3) else if the normalized-repository key already
maps to an existing record, same; (4) else insert under the fresh internal
key into both key maps (repository map only if a repository key is
present) and emit. -/

/-- Spec §4.5 step 2–4 for one record. -/
def dedupeSpecStep (lc : String → String → Int)
    (acc : DeduplicationState × List String × Nat) (server : ServerRecord) :
    DeduplicationState × List String × Nat :=
  let (st, emitted, dups) := acc
  let nkey := recordNameKey server
  let rkey := recordRepoKey server
  let nameExisting : Option (String × ServerRecord) :=
    match lookupA st.normalizedNames nkey with
    | some k => (lookupA st.serverMap k).map (fun r => (k, r))
    | none => none
  match nameExisting with
  | some (k, existing) =>
    ({ st with serverMap := setA st.serverMap k (Deduplicator.mergeServers lc existing server) },
     emitted, dups + 1)
  | none =>
    let repoExisting : Option (String × ServerRecord) :=
      match rkey with
      | some ru =>
        match lookupA st.repositoryUrls ru with
        | some k => (lookupA st.serverMap k).map (fun r => (k, r))
        | none => none
      | none => none
    match repoExisting with
    | some (k, existing) =>
      ({ st with serverMap := setA st.serverMap k (Deduplicator.mergeServers lc existing server) },
       emitted, dups + 1)
    | none =>
      let key := compositeKey server
      ({ st with
          serverMap := setA st.serverMap key server
          normalizedNames := setA st.normalizedNames nkey key
          repositoryUrls :=
            match rkey with
            | some ru => setA st.repositoryUrls ru key
            | none => st.repositoryUrls },
       emitted ++ [key], dups)

/-- Spec §4.5 `dedupe` over a record sequence. -/
def dedupeSpec (lc : String → String → Int) (st : DeduplicationState)
    (servers : List ServerRecord) : DeduplicationState × List String × Nat :=
  servers.foldl (dedupeSpecStep lc) (st, [], 0)

/-! ### Concrete sample inputs (used by witnesses and counterexamples) -/

/-- A trivial `localeCompare` model for concrete evaluations. -/
def sampleLc : String → String → Int := fun _ _ => 0

/-- Enrichers that attach empty classification data. -/
def sampleEnrichers : Enrichers :=
  { categorize := fun _ => []
    checkCompat := fun _ => []
    genInstall := fun _ => {} }

/-- A clock whose `now` and every parsed date are the epoch. -/
def sampleClock : Clock := { nowMs := 0, dateMs := fun _ => 0 }

/-- A raw npm observation with a registry-reported download count. -/
def sampleMetaNpm : ServerMetadata :=
  { name := "mcp-server-test"
    description := "Test server"
    version := "1.0.0"
    sourceUrl := "https://npm.com/mcp-server-test"
    source := .npm
    stars := some 0
    downloads := some 1000
    lastUpdated := "2024-01-01T00:00:00Z" }

/-- A raw observation with a valid source URL but a malformed repository
URL. -/
def sampleMetaBadRepo : ServerMetadata :=
  { name := "srv"
    description := "d"
    version := "1.0.0"
    sourceUrl := "https://github.com/x/y"
    repository := some "not a url"
    source := .github
    lastUpdated := "2024-01-01T00:00:00Z" }

/-- An enhanced npm record. -/
def sampleNpmRecord : ServerRecord :=
  { name := "MCP Server"
    description := "Test server"
    version := "1.0.0"
    sourceUrl := "https://npm.com/mcp-server-test"
    sourceUrls := { npm := some "https://npm.com/mcp-server-test" }
    source := .npm
    repository := some "https://github.com/x/y"
    lastUpdated := "2024-01-01T00:00:00Z"
    isActive := true
    categories := []
    compatibility := []
    installationInstructions := {}
    normalizedName := "mcp-server-test" }

/-- An enhanced pypi record with the same normalized name under a
different spelling. -/
def samplePypiRecord : ServerRecord :=
  { name := "mcp_server_test"
    description := "Test server"
    version := "1.0.1"
    sourceUrl := "https://pypi.org/mcp-server-test"
    sourceUrls := { pypi := some "https://pypi.org/mcp-server-test" }
    source := .pypi
    lastUpdated := "2024-02-01T00:00:00Z"
    isActive := true
    categories := []
    compatibility := []
    installationInstructions := {}
    normalizedName := "mcp-server-test" }

/-- The record `processOne` produces from `sampleMetaNpm` under
`sampleClock`: only `downloads` changes, to the popularity score
`(0*0.4 + log10(1001)*0.3 + 1*0.3` rounded`) = 1.2`. -/
def sampleProcessedNpm : ServerMetadata :=
  { sampleMetaNpm with downloads := some (6/5 : Rat) }

/-! ### Properties of the embedded code used throughout the development -/

/-- The fields no merge rule ever writes: equality on `name`,
`description`, `license`, `author`, `keywords`, `source`,
`normalizedName`, `repository`. -/
def FrameEq (a b : ServerRecord) : Prop :=
  a.name = b.name ∧ a.description = b.description ∧ a.license = b.license ∧
  a.author = b.author ∧ a.keywords = b.keywords ∧ a.source = b.source ∧
  a.normalizedName = b.normalizedName ∧ a.repository = b.repository

/-- Every value of `normalizedNames` and of `repositoryUrls` is a nonempty
key that is present in `serverMap`. -/
def WFStore (st : DeduplicationState) : Prop :=
  (∀ p ∈ st.normalizedNames, p.2 ≠ "" ∧ (lookupA st.serverMap p.2).isSome) ∧
  (∀ p ∈ st.repositoryUrls, p.2 ≠ "" ∧ (lookupA st.serverMap p.2).isSome)

/-- Key-map values are truthy (nonempty) strings — the part of store
well-formedness that separates the source's JS truthiness tests from the
spec's plain lookups. -/
def WFValues (st : DeduplicationState) : Prop :=
  (∀ p ∈ st.normalizedNames, p.2 ≠ "") ∧ (∀ p ∈ st.repositoryUrls, p.2 ≠ "")

/-- The output alphabet of `normalizeName`: ASCII lowercase letters,
digits, and the hyphen. -/
def goodChar (c : Char) : Bool := isAsciiLower c || isAsciiDigit c || c = '-'

/-- The shape of `normalizeName` output: only lowercase ASCII letters,
digits and hyphens; no two adjacent hyphens; no leading or trailing
hyphen. -/
def NormalizedL (l : List Char) : Prop :=
  (∀ c ∈ l, goodChar c = true) ∧
  l.Chain' (fun a b => ¬(a = '-' ∧ b = '-')) ∧
  (∀ h ∈ l.head?, ¬h = '-') ∧
  (∀ z ∈ l.getLast?, ¬z = '-')

/-- The dedupe key signature of a record: its normalized-name key together
with its collapsed repository key.  The keys `deduplicate` consults, and
exactly the data `mergeServers` never changes. -/
def keysig (server : ServerRecord) : String × Option String :=
  (recordNameKey server, recordRepoKey server)

/-- Two key signatures that cannot collide in `deduplicate`: distinct
name keys, and distinct repository keys whenever both are present. -/
def SigFresh (p q : String × Option String) : Prop :=
  p.1 ≠ q.1 ∧ ∀ a b, p.2 = some a → q.2 = some b → a ≠ b

/-- The invariant the `deduplicate` fold maintains from a fresh store: the
store is well-formed, every emitted key holds a live record that is stored
under its own composite key and whose name and repository keys are
registered in the key maps, and the key signatures of the emitted
survivors are pairwise collision-free. -/
def RunInv (st : DeduplicationState) (emitted : List String) : Prop :=
  WFStore st ∧
  (∀ k ∈ emitted, ∃ r, lookupA st.serverMap k = some r ∧ k = compositeKey r ∧
    (lookupA st.normalizedNames (recordNameKey r)).isSome = true ∧
    (∀ ru, recordRepoKey r = some ru → (lookupA st.repositoryUrls ru).isSome = true)) ∧
  ((emitted.filterMap (lookupA st.serverMap)).map keysig).Pairwise SigFresh

/-! ## Theorems -/

/-! ### Merge frame facts -/

theorem frameEq_trans {a b c : ServerRecord} (h1 : FrameEq a b) (h2 : FrameEq b c) :
    FrameEq a c := by
  obtain ⟨x1, x2, x3, x4, x5, x6, x7, x8⟩ := h1
  obtain ⟨y1, y2, y3, y4, y5, y6, y7, y8⟩ := h2
  exact ⟨x1.trans y1, x2.trans y2, x3.trans y3, x4.trans y4, x5.trans y5,
    x6.trans y6, x7.trans y7, x8.trans y8⟩

theorem mergeStars_frame (e i : ServerRecord) :
    FrameEq (Deduplicator.mergeStars e i) e := by
  unfold Deduplicator.mergeStars FrameEq
  try dsimp only
  repeat' split
  all_goals exact ⟨rfl, rfl, rfl, rfl, rfl, rfl, rfl, rfl⟩

theorem mergeDownloads_frame (e i : ServerRecord) :
    FrameEq (Deduplicator.mergeDownloads e i) e := by
  unfold Deduplicator.mergeDownloads FrameEq
  try dsimp only
  repeat' split
  all_goals exact ⟨rfl, rfl, rfl, rfl, rfl, rfl, rfl, rfl⟩

theorem mergeReadme_frame (e i : ServerRecord) :
    FrameEq (Deduplicator.mergeReadme e i) e := by
  unfold Deduplicator.mergeReadme FrameEq
  try dsimp only
  repeat' split
  all_goals exact ⟨rfl, rfl, rfl, rfl, rfl, rfl, rfl, rfl⟩

theorem mergeSourceUrls_frame (e i : ServerRecord) :
    FrameEq (Deduplicator.mergeSourceUrls e i) e := by
  unfold Deduplicator.mergeSourceUrls FrameEq
  try dsimp only
  repeat' split
  all_goals exact ⟨rfl, rfl, rfl, rfl, rfl, rfl, rfl, rfl⟩

theorem mergeVersion_frame (lc : String → String → Int) (e i : ServerRecord) :
    FrameEq (Deduplicator.mergeVersion lc e i) e := by
  unfold Deduplicator.mergeVersion FrameEq
  try dsimp only
  repeat' split
  all_goals exact ⟨rfl, rfl, rfl, rfl, rfl, rfl, rfl, rfl⟩

theorem mergeLastUpdated_frame (e i : ServerRecord) :
    FrameEq (Deduplicator.mergeLastUpdated e i) e := by
  unfold Deduplicator.mergeLastUpdated FrameEq
  try dsimp only
  repeat' split
  all_goals exact ⟨rfl, rfl, rfl, rfl, rfl, rfl, rfl, rfl⟩

/-- `mergeServers` preserves every frame field of `existing`. -/
theorem mergeServers_frame (lc : String → String → Int) (e i : ServerRecord) :
    FrameEq (Deduplicator.mergeServers lc e i) e := by
  unfold Deduplicator.mergeServers
  exact frameEq_trans (mergeLastUpdated_frame _ _)
    (frameEq_trans (mergeVersion_frame _ _ _)
      (frameEq_trans (mergeSourceUrls_frame _ _)
        (frameEq_trans (mergeReadme_frame _ _)
          (frameEq_trans (mergeDownloads_frame _ _) (mergeStars_frame _ _)))))

/-- C7 — For every merge of an incoming record into an existing record,
the existing record's `name`, `description`, `license`, `author` and
`keywords` fields are left unchanged by the merge (first-seen wins),
regardless of the incoming record's values. -/
theorem C7_merge_never_overwrites_identity_fields
    (lc : String → String → Int) (existing incoming : ServerRecord) :
    (Deduplicator.mergeServers lc existing incoming).name = existing.name ∧
    (Deduplicator.mergeServers lc existing incoming).description = existing.description ∧
    (Deduplicator.mergeServers lc existing incoming).license = existing.license ∧
    (Deduplicator.mergeServers lc existing incoming).author = existing.author ∧
    (Deduplicator.mergeServers lc existing incoming).keywords = existing.keywords := by
  obtain ⟨h1, h2, h3, h4, h5, -, -, -⟩ := mergeServers_frame lc existing incoming
  exact ⟨h1, h2, h3, h4, h5⟩

/-! ### Association-list lemmas -/

theorem lookupA_setA_self {α : Type} (m : List (String × α)) (k : String) (v : α) :
    lookupA (setA m k v) k = some v := by
  induction m with
  | nil => simp [setA, lookupA]
  | cons p ps ih =>
    by_cases h : p.1 = k <;> simp [setA, lookupA, h, ih]

theorem lookupA_setA_ne {α : Type} (m : List (String × α)) {k k' : String}
    (h : k' ≠ k) (v : α) : lookupA (setA m k v) k' = lookupA m k' := by
  induction m with
  | nil =>
    simp only [setA, lookupA]
    rw [if_neg (fun hh => h hh.symm)]
  | cons p ps ih =>
    by_cases hp : p.1 = k
    · subst hp
      simp [setA, lookupA, Ne.symm h]
    · simp only [setA, if_neg hp, lookupA]
      by_cases hp' : p.1 = k' <;> simp [hp', ih]

theorem isSome_lookupA_setA {α : Type} (m : List (String × α)) (k : String) (v : α)
    (k' : String) (h : (lookupA m k').isSome) : (lookupA (setA m k v) k').isSome := by
  by_cases hk : k' = k
  · subst hk; simp [lookupA_setA_self]
  · rw [lookupA_setA_ne m hk]; exact h

theorem mem_setA {α : Type} {m : List (String × α)} {k : String} {v : α}
    {p : String × α} (h : p ∈ setA m k v) : p ∈ m ∨ p = (k, v) := by
  induction m with
  | nil => simpa [setA] using h
  | cons q qs ih =>
    by_cases hq : q.1 = k
    · simp only [setA, if_pos hq] at h
      rcases List.mem_cons.mp h with h | h
      · right; exact h
      · left; exact List.mem_cons_of_mem _ h
    · simp only [setA, if_neg hq] at h
      rcases List.mem_cons.mp h with h | h
      · left; exact h ▸ List.mem_cons_self q qs
      · rcases ih h with h | h
        · left; exact List.mem_cons_of_mem _ h
        · right; exact h

theorem lookupA_mem {α : Type} {m : List (String × α)} {k : String} {v : α}
    (h : lookupA m k = some v) : (k, v) ∈ m := by
  induction m with
  | nil => simp [lookupA] at h
  | cons p ps ih =>
    by_cases hp : p.1 = k
    · simp only [lookupA, if_pos hp] at h
      obtain ⟨a, b⟩ := p
      obtain rfl : a = k := hp
      obtain rfl : b = v := Option.some.inj h
      exact List.mem_cons_self _ _
    · simp only [lookupA, if_neg hp] at h
      exact List.mem_cons_of_mem _ (ih h)

/-! ### Characterizations of one `deduplicate` iteration -/

/-- The repository-URL map of the insert arm, phrased through the
collapsed key `recordRepoKey`. -/
theorem insertState_repositoryUrls (st : DeduplicationState) (server : ServerRecord) :
    (insertState st server).repositoryUrls =
    (match recordRepoKey server with
      | some ru => setA st.repositoryUrls ru (compositeKey server)
      | none => st.repositoryUrls) := by
  unfold insertState recordRepoKey
  cases recordRepoUrl server with
  | none => rfl
  | some ru =>
    by_cases h : ru = "" <;> simp [h]

/-- The repository fallback either merges into some record live in
`serverMap`, or inserts. -/
theorem dedupeStepRepo_out (lc : String → String → Int) (st : DeduplicationState)
    (em : List String) (d : Nat) (server : ServerRecord) :
    (∃ ek ex, lookupA st.serverMap ek = some ex ∧
      Deduplicator.dedupeStepRepo lc st em d server =
        ({ st with serverMap := setA st.serverMap ek (Deduplicator.mergeServers lc ex server) },
         em, d + 1)) ∨
    Deduplicator.dedupeStepRepo lc st em d server =
      (insertState st server, em ++ [compositeKey server], d) := by
  unfold Deduplicator.dedupeStepRepo
  dsimp only
  cases hru : recordRepoUrl server with
  | none => right; rfl
  | some ru =>
    dsimp only
    cases h1 : (decide (ru ≠ "") && hasA st.repositoryUrls ru) with
    | false => rw [if_neg (by simp)]; right; rfl
    | true =>
      rw [if_pos rfl]
      cases hk : lookupA st.repositoryUrls ru with
      | none => right; rfl
      | some ek =>
        dsimp only
        by_cases h2 : ek = ""
        · rw [if_neg (by simp [h2])]; right; rfl
        · rw [if_pos h2]
          cases hex : lookupA st.serverMap ek with
          | none => right; rfl
          | some ex => left; exact ⟨ek, ex, hex, rfl⟩

/-- Every iteration either merges the incoming record into some record
that is live in `serverMap` (emitting nothing, counting one duplicate), or
inserts it and emits its composite key. -/
theorem dedupeStep_out (lc : String → String → Int) (st : DeduplicationState)
    (em : List String) (d : Nat) (server : ServerRecord) :
    (∃ ek ex, lookupA st.serverMap ek = some ex ∧
      Deduplicator.dedupeStep lc (st, em, d) server =
        ({ st with serverMap := setA st.serverMap ek (Deduplicator.mergeServers lc ex server) },
         em, d + 1)) ∨
    Deduplicator.dedupeStep lc (st, em, d) server =
      (insertState st server, em ++ [compositeKey server], d) := by
  have hrepo := dedupeStepRepo_out lc st em d server
  unfold Deduplicator.dedupeStep
  dsimp only
  cases hn : lookupA st.normalizedNames (recordNameKey server) with
  | none => simpa [hasA, hn] using hrepo
  | some k =>
    by_cases hk : k = ""
    · simpa [hasA, hn, hk] using hrepo
    · cases hex : lookupA st.serverMap k with
      | none => simpa [hasA, hn, hk, hex] using hrepo
      | some ex =>
        left
        exact ⟨k, ex, hex, by simp [hasA, hn, hk, hex]⟩

/-- When the (collapsed) repository key is absent from `repositoryUrls`,
the repository fallback inserts. -/
theorem dedupeStepRepo_insert (lc : String → String → Int) (st : DeduplicationState)
    (em : List String) (d : Nat) (server : ServerRecord)
    (hr : ∀ ru, recordRepoKey server = some ru → lookupA st.repositoryUrls ru = none) :
    Deduplicator.dedupeStepRepo lc st em d server =
      (insertState st server, em ++ [compositeKey server], d) := by
  unfold Deduplicator.dedupeStepRepo
  dsimp only
  cases hru : recordRepoUrl server with
  | none => rfl
  | some ru =>
    dsimp only
    by_cases h2 : ru = ""
    · rw [if_neg (by simp [h2])]
    · have hcoll : recordRepoKey server = some ru := by
        unfold recordRepoKey
        rw [hru]
        simp [h2]
      rw [if_neg (by simp [hasA, hr ru hcoll])]

/-- When the normalized-name key misses and the repository key is fresh,
the iteration inserts the record and emits its composite key. -/
theorem dedupeStep_insert (lc : String → String → Int) (st : DeduplicationState)
    (em : List String) (d : Nat) (server : ServerRecord)
    (hn : lookupA st.normalizedNames (recordNameKey server) = none)
    (hr : ∀ ru, recordRepoKey server = some ru → lookupA st.repositoryUrls ru = none) :
    Deduplicator.dedupeStep lc (st, em, d) server =
      (insertState st server, em ++ [compositeKey server], d) := by
  unfold Deduplicator.dedupeStep
  dsimp only
  rw [if_neg (by simp [hasA, hn])]
  exact dedupeStepRepo_insert lc st em d server hr

/-- When the normalized-name key maps to a truthy key holding a live
record, the iteration merges into that record and emits nothing. -/
theorem dedupeStep_merge_name (lc : String → String → Int) (st : DeduplicationState)
    (em : List String) (d : Nat) (server : ServerRecord) (k : String) (ex : ServerRecord)
    (hk : lookupA st.normalizedNames (recordNameKey server) = some k)
    (hne : k ≠ "") (hex : lookupA st.serverMap k = some ex) :
    Deduplicator.dedupeStep lc (st, em, d) server =
      ({ st with serverMap := setA st.serverMap k (Deduplicator.mergeServers lc ex server) },
       em, d + 1) := by
  unfold Deduplicator.dedupeStep
  dsimp only
  simp [hasA, hk, hne, hex]

/-! ### Store well-formedness (key maps point at live, truthy keys) -/

theorem compositeKey_ne_empty (server : ServerRecord) : compositeKey server ≠ "" := by
  unfold compositeKey
  intro h
  have h2 := congrArg String.length h
  rw [String.length_append, String.length_append] at h2
  have e1 : (":" : String).length = 1 := rfl
  have e2 : ("" : String).length = 0 := rfl
  omega

theorem WFStore_insert (st : DeduplicationState) (server : ServerRecord)
    (h : WFStore st) : WFStore (insertState st server) := by
  obtain ⟨h1, h2⟩ := h
  constructor
  · intro p hp
    rcases mem_setA hp with hp | rfl
    · obtain ⟨hne, hlive⟩ := h1 p hp
      exact ⟨hne, isSome_lookupA_setA _ _ _ _ hlive⟩
    · exact ⟨compositeKey_ne_empty server, by simp [insertState, lookupA_setA_self]⟩
  · intro p hp
    have hsrv : (insertState st server).serverMap = setA st.serverMap (compositeKey server) server := rfl
    rw [insertState_repositoryUrls] at hp
    revert hp
    cases hck : recordRepoKey server with
    | none =>
      intro hp
      obtain ⟨hne, hlive⟩ := h2 p hp
      exact ⟨hne, hsrv ▸ isSome_lookupA_setA _ _ _ _ hlive⟩
    | some ru =>
      intro hp
      rcases mem_setA hp with hp | rfl
      · obtain ⟨hne, hlive⟩ := h2 p hp
        exact ⟨hne, hsrv ▸ isSome_lookupA_setA _ _ _ _ hlive⟩
      · exact ⟨compositeKey_ne_empty server, by simp [insertState, lookupA_setA_self]⟩

theorem WFStore_mergeAt (st : DeduplicationState) (ek : String) (r : ServerRecord)
    (h : WFStore st) : WFStore { st with serverMap := setA st.serverMap ek r } := by
  obtain ⟨h1, h2⟩ := h
  exact ⟨fun p hp => ⟨(h1 p hp).1, isSome_lookupA_setA _ _ _ _ (h1 p hp).2⟩,
    fun p hp => ⟨(h2 p hp).1, isSome_lookupA_setA _ _ _ _ (h2 p hp).2⟩⟩

theorem WFStore_dedupeStep (lc : String → String → Int) (st : DeduplicationState)
    (em : List String) (d : Nat) (server : ServerRecord) (h : WFStore st) :
    WFStore (Deduplicator.dedupeStep lc (st, em, d) server).1 := by
  rcases dedupeStep_out lc st em d server with ⟨ek, ex, _, heq⟩ | heq <;> rw [heq]
  · exact WFStore_mergeAt st ek _ h
  · exact WFStore_insert st server h

theorem WFStore_foldl (lc : String → String → Int) (l : List ServerRecord) :
    ∀ acc : DeduplicationState × List String × Nat, WFStore acc.1 →
      WFStore (List.foldl (Deduplicator.dedupeStep lc) acc l).1 := by
  induction l with
  | nil => intro acc h; exact h
  | cons server rest ih =>
    intro acc h
    obtain ⟨st, em, d⟩ := acc
    exact ih _ (WFStore_dedupeStep lc st em d server h)

theorem WFStore_deduplicate (lc : String → String → Int) (st : DeduplicationState)
    (servers : List ServerRecord) (h : WFStore st) :
    WFStore (Deduplicator.deduplicate lc st servers).1 :=
  WFStore_foldl lc servers (st, [], 0) h

theorem WFStore_init (runId ts : String) (mode : UpdateMode) :
    WFStore (Deduplicator.init runId ts mode) := by
  constructor <;> intro p hp <;> simp [Deduplicator.init] at hp

theorem WFStore_runCalls (lc : String → String → Int) :
    ∀ (calls : List (List ServerRecord)) (st : DeduplicationState), WFStore st →
      WFStore (Deduplicator.runCalls lc st calls) := by
  intro calls
  induction calls with
  | nil => intro st h; exact h
  | cons l ls ih =>
    intro st h
    exact ih _ (WFStore_deduplicate lc st l h)

/-- C9 — Store-consistency invariant: starting from a freshly constructed
`Deduplicator`, after any sequence of `deduplicate` calls, every composite
key appearing as a value in the `normalizedNames` map or in the
`repositoryUrls` map is present as a key of `serverMap` (its lookup
succeeds), so no key-map entry points at a missing record. -/
theorem C9_store_consistency (lc : String → String → Int) (runId ts : String)
    (mode : UpdateMode) (calls : List (List ServerRecord)) :
    (∀ p ∈ (Deduplicator.runCalls lc (Deduplicator.init runId ts mode) calls).normalizedNames,
      hasA (Deduplicator.runCalls lc (Deduplicator.init runId ts mode) calls).serverMap p.2 = true) ∧
    (∀ p ∈ (Deduplicator.runCalls lc (Deduplicator.init runId ts mode) calls).repositoryUrls,
      hasA (Deduplicator.runCalls lc (Deduplicator.init runId ts mode) calls).serverMap p.2 = true) := by
  have h := WFStore_runCalls lc calls _ (WFStore_init runId ts mode)
  exact ⟨fun p hp => (h.1 p hp).2, fun p hp => (h.2 p hp).2⟩

/-! ### Emitted keys stay live: the returned array aliases the store -/

theorem emitted_live_foldl (lc : String → String → Int) (l : List ServerRecord) :
    ∀ acc : DeduplicationState × List String × Nat,
      (∀ k ∈ acc.2.1, (lookupA acc.1.serverMap k).isSome) →
      ∀ k ∈ (List.foldl (Deduplicator.dedupeStep lc) acc l).2.1,
        (lookupA (List.foldl (Deduplicator.dedupeStep lc) acc l).1.serverMap k).isSome := by
  induction l with
  | nil => intro acc h; exact h
  | cons server rest ih =>
    intro acc h
    obtain ⟨st, em, d⟩ := acc
    refine ih _ ?_
    rcases dedupeStep_out lc st em d server with ⟨ek, ex, _, heq⟩ | heq <;> rw [heq]
    · exact fun k hk => isSome_lookupA_setA _ _ _ _ (h k hk)
    · intro k hk
      rcases List.mem_append.mp hk with hk | hk
      · exact isSome_lookupA_setA _ _ _ _ (h k hk)
      · have hkc : k = compositeKey server := by simpa using hk
        subst hkc
        simp [insertState, lookupA_setA_self]

theorem forall2_filterMap_of_isSome {α β : Type} (f : α → Option β) :
    ∀ l : List α, (∀ a ∈ l, (f a).isSome) →
      List.Forall₂ (fun a b => f a = some b) l (l.filterMap f) := by
  intro l
  induction l with
  | nil => intro _; simp [List.filterMap_nil]
  | cons a rest ih =>
    intro h
    obtain ⟨b, hb⟩ := Option.isSome_iff_exists.mp (h a (List.mem_cons_self a rest))
    rw [List.filterMap_cons, hb]
    exact List.Forall₂.cons hb (ih fun x hx => h x (List.mem_cons_of_mem a hx))

/-- C10 — Emitted-survivor aliasing: each record in the array returned by
`deduplicate` is the stored record object held in `serverMap`; merges into
an already-emitted survivor are visible in the returned array, whose
elements equal the post-call stored records for their composite keys
(every emitted key is live in the final map, and the returned records are
exactly its values there, in emission order). -/
theorem C10_survivors_alias_store (lc : String → String → Int)
    (st : DeduplicationState) (servers : List ServerRecord) :
    List.Forall₂
      (fun k r => lookupA (Deduplicator.deduplicate lc st servers).1.serverMap k = some r)
      (Deduplicator.deduplicate lc st servers).2.1
      (Deduplicator.dedupeRecords lc st servers).2.1 := by
  have hlive := emitted_live_foldl lc servers (st, [], 0) (by intro k hk; simp at hk)
  exact forall2_filterMap_of_isSome _ _ hlive

/-! ### C2: the loop follows the spec's three-case algorithm -/

theorem WFValues_dedupeStep (lc : String → String → Int) (st : DeduplicationState)
    (em : List String) (d : Nat) (server : ServerRecord) (h : WFValues st) :
    WFValues (Deduplicator.dedupeStep lc (st, em, d) server).1 := by
  obtain ⟨h1, h2⟩ := h
  rcases dedupeStep_out lc st em d server with ⟨ek, ex, _, heq⟩ | heq <;> rw [heq]
  · exact ⟨h1, h2⟩
  · constructor
    · intro p hp
      rcases mem_setA hp with hp | rfl
      · exact h1 p hp
      · exact compositeKey_ne_empty server
    · intro p hp
      rw [insertState_repositoryUrls] at hp
      revert hp
      cases recordRepoKey server with
      | none => intro hp; exact h2 p hp
      | some ru =>
        intro hp
        rcases mem_setA hp with hp | rfl
        · exact h2 p hp
        · exact compositeKey_ne_empty server

theorem dedupeStepRepo_eq_spec (lc : String → String → Int) (st : DeduplicationState)
    (em : List String) (d : Nat) (server : ServerRecord) (h : WFValues st) :
    Deduplicator.dedupeStepRepo lc st em d server =
      (match (match recordRepoKey server with
        | some ru =>
          match lookupA st.repositoryUrls ru with
          | some k => (lookupA st.serverMap k).map (fun r => (k, r))
          | none => none
        | none => (none : Option (String × ServerRecord))) with
      | some (k, existing) =>
        ({ st with serverMap := setA st.serverMap k (Deduplicator.mergeServers lc existing server) },
         em, d + 1)
      | none => (insertState st server, em ++ [compositeKey server], d)) := by
  have hck : recordRepoKey server =
      (match recordRepoUrl server with
        | some ru => if ru = "" then none else some ru
        | none => none) := rfl
  unfold Deduplicator.dedupeStepRepo
  dsimp only
  cases hru : recordRepoUrl server with
  | none => rw [hck, hru]
  | some ru =>
    dsimp only
    rw [hck, hru]
    by_cases h2 : ru = ""
    · simp [h2]
    · cases hk : lookupA st.repositoryUrls ru with
      | none => simp [h2, hasA, hk]
      | some k2 =>
        have hk2ne : k2 ≠ "" := h.2 _ (lookupA_mem hk)
        cases hex : lookupA st.serverMap k2 with
        | none => simp [h2, hasA, hk, hk2ne, hex]
        | some ex => simp [h2, hasA, hk, hk2ne, hex]

/-- `insertState` with its repository map phrased through the collapsed
key, as the spec-side step builds it. -/
theorem insertState_eq_spec (st : DeduplicationState) (server : ServerRecord) :
    insertState st server =
      { st with
        serverMap := setA st.serverMap (compositeKey server) server
        normalizedNames := setA st.normalizedNames (recordNameKey server) (compositeKey server)
        repositoryUrls :=
          match recordRepoKey server with
          | some ru => setA st.repositoryUrls ru (compositeKey server)
          | none => st.repositoryUrls } := by
  have h := insertState_repositoryUrls st server
  unfold insertState at h ⊢
  congr 1

theorem dedupeStep_eq_spec (lc : String → String → Int) (st : DeduplicationState)
    (em : List String) (d : Nat) (server : ServerRecord) (h : WFValues st) :
    Deduplicator.dedupeStep lc (st, em, d) server = dedupeSpecStep lc (st, em, d) server := by
  have hrepo := dedupeStepRepo_eq_spec lc st em d server h
  unfold Deduplicator.dedupeStep dedupeSpecStep
  dsimp only
  cases hn : lookupA st.normalizedNames (recordNameKey server) with
  | none =>
    rw [if_neg (by simp [hasA, hn])]
    dsimp only
    rw [← insertState_eq_spec st server]
    exact hrepo
  | some k =>
    have hkne : k ≠ "" := h.1 _ (lookupA_mem hn)
    rw [if_pos (by simp [hasA, hn])]
    dsimp only
    rw [if_pos hkne]
    cases hex : lookupA st.serverMap k with
    | none =>
      simp only [hex]
      rw [← insertState_eq_spec st server]
      exact hrepo
    | some ex => simp [hex]

theorem foldl_dedupeStep_eq_spec (lc : String → String → Int) (servers : List ServerRecord) :
    ∀ (st : DeduplicationState) (em : List String) (d : Nat), WFValues st →
      List.foldl (Deduplicator.dedupeStep lc) (st, em, d) servers =
      List.foldl (dedupeSpecStep lc) (st, em, d) servers := by
  induction servers with
  | nil => intro st em d _; rfl
  | cons server rest ih =>
    intro st em d h
    have hwf := WFValues_dedupeStep lc st em d server h
    rw [List.foldl_cons, List.foldl_cons, ← dedupeStep_eq_spec lc st em d server h]
    rcases hval : Deduplicator.dedupeStep lc (st, em, d) server with ⟨st', em', d'⟩
    rw [hval] at hwf
    exact ih st' em' d' hwf

/-- C2 — For every input sequence and every store whose key-map values are
truthy, `deduplicate` processes records in input order and per record: if
the normalized-name key maps to a stored record, the incoming record is
merged into it and not emitted; only on a name miss is the
normalized-repository key consulted, with the same merge-and-skip
behaviour; otherwise the record is inserted under its composite key into
the name map (and into the repository map only when a repository key is
present) and emitted, so survivors appear in first-seen order — i.e. the
implementation equals the step function written from spec §4.5. -/
theorem C2_deduplicate_follows_spec (lc : String → String → Int)
    (st : DeduplicationState) (servers : List ServerRecord) (h : WFValues st) :
    Deduplicator.deduplicate lc st servers = dedupeSpec lc st servers :=
  foldl_dedupeStep_eq_spec lc servers st [] 0 h

/-- C2 witness: the refinement instantiated on a fresh full-mode store
and two records that share a normalized name. -/
theorem C2_deduplicate_follows_spec_witness :
    WFValues (Deduplicator.init "run-1" "t0" .full) ∧
    Deduplicator.deduplicate sampleLc (Deduplicator.init "run-1" "t0" .full)
        [sampleNpmRecord, samplePypiRecord] =
      dedupeSpec sampleLc (Deduplicator.init "run-1" "t0" .full)
        [sampleNpmRecord, samplePypiRecord] :=
  have h : WFValues (Deduplicator.init "run-1" "t0" .full) :=
    ⟨fun p hp => absurd hp (List.not_mem_nil p), fun p hp => absurd hp (List.not_mem_nil p)⟩
  ⟨h, C2_deduplicate_follows_spec sampleLc _ _ h⟩

/-! ### C6: malformed repository URL — downgrade without a log entry -/

/-- C6 (amended) — For every record whose repository URL is present
(truthy) but malformed while its source URL is valid, `validateUrls` does
not reject the record and clears the repository field to absent, but —
unlike a rejection — appends *nothing* to the validation-failure list
(the downgrade is only reported to the console logger). -/
theorem C6_repo_downgrade_clears_without_failure_entry
    (now : String) (server : ServerMetadata) (vf : List ValidationFailure)
    (hsrc : DataProcessor.isValidUrl server.sourceUrl = true)
    (rep : String) (hrep : server.repository = some rep) (hne : rep ≠ "")
    (hbad : DataProcessor.isValidUrl rep = false) :
    DataProcessor.validateUrls now server vf = (true, { server with repository := none }, vf) := by
  unfold DataProcessor.validateUrls
  rw [if_neg (by simp [hsrc])]
  rw [hrep]
  dsimp only
  rw [if_pos (by simp [hne, hbad])]

/-- C6 witness: the amended behaviour at a concrete record. -/
theorem C6_repo_downgrade_witness :
    DataProcessor.isValidUrl sampleMetaBadRepo.sourceUrl = true ∧
    sampleMetaBadRepo.repository = some "not a url" ∧
    DataProcessor.isValidUrl "not a url" = false ∧
    DataProcessor.validateUrls "t0" sampleMetaBadRepo [] =
      (true, { sampleMetaBadRepo with repository := none }, []) :=
  ⟨by decide, by decide, by decide,
    C6_repo_downgrade_clears_without_failure_entry "t0" sampleMetaBadRepo []
      (by decide) "not a url" (by decide) (by decide) (by decide)⟩

/-- C6 counterexample: the claim as stated is false — for this record the
repository URL is present and malformed, the record is kept and the field
cleared, yet the validation-failure log stays empty: no entry is appended
for the downgrade (rejections do append, as the invalid-source case
shows). -/
theorem C6_counterexample_no_entry_logged :
    (DataProcessor.validateUrls "t0" sampleMetaBadRepo []).1 = true ∧
    (DataProcessor.validateUrls "t0" sampleMetaBadRepo []).2.1.repository = none ∧
    (DataProcessor.validateUrls "t0" sampleMetaBadRepo []).2.2 = [] := by
  refine ⟨?_, ?_, ?_⟩ <;> decide

/-! ### C5: the popularity score overwrites the downloads field -/

/-- The popularity score reads only `stars`, `downloads` and
`lastUpdated`. -/
theorem calculatePopularityScore_congr (clock : Clock) (r1 r2 : ServerMetadata)
    (h1 : r1.stars = r2.stars) (h2 : r1.downloads = r2.downloads)
    (h3 : r1.lastUpdated = r2.lastUpdated) :
    DataProcessor.calculatePopularityScore clock r1 =
      DataProcessor.calculatePopularityScore clock r2 := by
  unfold DataProcessor.calculatePopularityScore DataProcessor.daysSinceLastUpdate
  rw [h1, h2, h3]

/-- `validateUrls` returns the record unchanged or with only the
repository field cleared. -/
theorem validateUrls_fields (now : String) (server : ServerMetadata)
    (vf : List ValidationFailure) :
    (DataProcessor.validateUrls now server vf).2.1 = server ∨
    (DataProcessor.validateUrls now server vf).2.1 = { server with repository := none } := by
  unfold DataProcessor.validateUrls
  repeat' split
  all_goals first | (left; rfl) | (right; rfl)

/-- C5 (amended) — Every record surviving `process` carries in `downloads`
the popularity score computed from its sanitized fields and its *original*
raw download count (the score overwrites that count), and the enhancement
step then stores that same score — not the raw count — in the per-origin
downloads mapping, keyed by the record's origin, or `undefined` when the
score is zero (falsy). -/
theorem C5_score_overwrites_downloads (enr : Enrichers) (clock : Clock) (now : String)
    (server : ServerMetadata) (vf vf' : List ValidationFailure) (out : ServerMetadata)
    (h : DataProcessor.processOne clock now server vf = (some out, vf')) :
    ∃ sc : Rat,
      out.downloads = some sc ∧
      sc = DataProcessor.calculatePopularityScore clock { out with downloads := server.downloads } ∧
      (enhanceRecord enr clock out).downloads =
        (if sc ≠ 0 then some (singleDownloads out.source sc) else none) := by
  unfold DataProcessor.processOne at h
  split at h
  · exact absurd h (by simp)
  · rename_i vf1 hv
    split at h
    · exact absurd h (by simp)
    · rename_i s1 vf2 hu
      rw [Prod.mk.injEq, Option.some.injEq] at h
      obtain ⟨hout, -⟩ := h
      have hs1 : s1 = server ∨ s1 = { server with repository := none } := by
        have hf := validateUrls_fields now server vf1
        rw [hu] at hf
        exact hf
      have hstars : s1.stars = server.stars := by
        rcases hs1 with rfl | rfl <;> rfl
      have hdl : s1.downloads = server.downloads := by
        rcases hs1 with rfl | rfl <;> rfl
      have hlu : s1.lastUpdated = server.lastUpdated := by
        rcases hs1 with rfl | rfl <;> rfl
      have key : out.downloads =
          some (DataProcessor.calculatePopularityScore clock
            { out with downloads := server.downloads }) := by
        rw [← hout]
        repeat' split
        all_goals
          dsimp only
        all_goals
          exact congrArg some (calculatePopularityScore_congr clock _ _ rfl hdl rfl)
      refine ⟨_, key, rfl, ?_⟩
      unfold enhanceRecord
      dsimp only
      rw [key]

set_option maxRecDepth 100000 in
/-- C5 witness: the amended claim instantiated at a concrete npm record
with raw download count 1000 under the epoch clock. -/
theorem C5_score_overwrites_downloads_witness :
    DataProcessor.processOne sampleClock "t0" sampleMetaNpm [] = (some sampleProcessedNpm, []) ∧
    (∃ sc : Rat,
      sampleProcessedNpm.downloads = some sc ∧
      sc = DataProcessor.calculatePopularityScore sampleClock
        { sampleProcessedNpm with downloads := sampleMetaNpm.downloads } ∧
      (enhanceRecord sampleEnrichers sampleClock sampleProcessedNpm).downloads =
        (if sc ≠ 0 then some (singleDownloads sampleProcessedNpm.source sc) else none)) :=
  ⟨by with_unfolding_all decide,
    C5_score_overwrites_downloads sampleEnrichers sampleClock "t0" sampleMetaNpm [] []
      sampleProcessedNpm (by with_unfolding_all decide)⟩

set_option maxRecDepth 100000 in
/-- C5 counterexample: the claim's second half is false — after processing
and enhancement, the per-origin downloads mapping of the record holds the
popularity score `1.2`, not the registry-reported raw count `1000`; the
raw per-origin count is not available anywhere on the record. -/
theorem C5_counterexample_raw_count_lost :
    (DataProcessor.processOne sampleClock "t0" sampleMetaNpm []).1.map
        (fun out => (enhanceRecord sampleEnrichers sampleClock out).downloads) =
      some (some { npm := some (6/5 : Rat) }) ∧
    (DataProcessor.processOne sampleClock "t0" sampleMetaNpm []).1.map
        (fun out => (enhanceRecord sampleEnrichers sampleClock out).downloads) ≠
      some (some ({ npm := some (1000 : Rat) } : DownloadStats)) :=
  ⟨by with_unfolding_all decide, by with_unfolding_all decide⟩

/-! ### C8: `normalizeName` is idempotent -/

theorem char_le_toNat {a b : Char} : a ≤ b ↔ a.toNat ≤ b.toNat := Iff.rfl

theorem goodChar_facts {c : Char} (h : goodChar c = true) :
    (97 ≤ c.toNat ∧ c.toNat ≤ 122) ∨ (48 ≤ c.toNat ∧ c.toNat ≤ 57) ∨ c.toNat = 45 := by
  unfold goodChar isAsciiLower isAsciiDigit at h
  rcases Bool.or_eq_true_iff.mp h with h | h
  · rcases Bool.or_eq_true_iff.mp h with h | h
    · obtain ⟨h1, h2⟩ := Bool.and_eq_true_iff.mp h
      exact Or.inl ⟨char_le_toNat.mp (of_decide_eq_true h1), char_le_toNat.mp (of_decide_eq_true h2)⟩
    · obtain ⟨h1, h2⟩ := Bool.and_eq_true_iff.mp h
      exact Or.inr (Or.inl ⟨char_le_toNat.mp (of_decide_eq_true h1), char_le_toNat.mp (of_decide_eq_true h2)⟩)
  · have : c = '-' := of_decide_eq_true h
    exact Or.inr (Or.inr (by rw [this]; rfl))

theorem isAsciiUpper_toNat {c : Char} (h : isAsciiUpper c = true) :
    65 ≤ c.toNat ∧ c.toNat ≤ 90 := by
  obtain ⟨h1, h2⟩ := Bool.and_eq_true_iff.mp h
  exact ⟨char_le_toNat.mp (of_decide_eq_true h1), char_le_toNat.mp (of_decide_eq_true h2)⟩

theorem goodChar_not_upper {c : Char} (h : goodChar c = true) : isAsciiUpper c = false := by
  rcases hb : isAsciiUpper c with _ | _
  · rfl
  · have h1 := isAsciiUpper_toNat hb
    rcases goodChar_facts h with ⟨a, b⟩ | ⟨a, b⟩ | a <;> omega

theorem jsLowerChar_eq_self {c : Char} (h : isAsciiUpper c = false) : jsLowerChar c = c := by
  unfold jsLowerChar
  rw [h]
  rfl

theorem isAsciiUpper_jsLowerChar (c : Char) : isAsciiUpper (jsLowerChar c) = false := by
  unfold jsLowerChar
  rcases hb : isAsciiUpper c with _ | _
  · simp [hb]
  · obtain ⟨h1, h2⟩ := isAsciiUpper_toNat hb
    simp only [if_true]
    have hn : ∀ n, 65 ≤ n → n ≤ 90 → isAsciiUpper (Char.ofNat (n + 32)) = false := by
      intro n hn1 hn2
      interval_cases n <;> decide
    exact hn c.toNat h1 h2

theorem mem_collapseRunsAux (p : Char → Bool) (r : Char) :
    ∀ (l : List Char) (b : Bool) (c : Char), c ∈ collapseRunsAux p r l b →
      c = r ∨ (c ∈ l ∧ p c = false) := by
  intro l
  induction l with
  | nil => intro b c hc; simp [collapseRunsAux] at hc
  | cons a as ih =>
    intro b c hc
    unfold collapseRunsAux at hc
    rcases ha : p a with _ | _
    · rw [ha] at hc
      simp only [Bool.false_eq_true, if_false] at hc
      rcases List.mem_cons.mp hc with rfl | hc
      · exact Or.inr ⟨List.mem_cons_self _ _, ha⟩
      · rcases ih _ _ hc with h | ⟨h1, h2⟩
        · exact Or.inl h
        · exact Or.inr ⟨List.mem_cons_of_mem _ h1, h2⟩
    · rw [ha] at hc
      simp only [if_true] at hc
      have step : c ∈ collapseRunsAux p r as true → c = r ∨ (c ∈ a :: as ∧ p c = false) := by
        intro hm
        rcases ih _ _ hm with h | ⟨h1, h2⟩
        · exact Or.inl h
        · exact Or.inr ⟨List.mem_cons_of_mem _ h1, h2⟩
      cases b with
      | true => exact step hc
      | false =>
        rcases List.mem_cons.mp hc with rfl | hc
        · exact Or.inl rfl
        · exact step hc

theorem collapseRunsAux_id (p : Char → Bool) (r : Char) :
    ∀ (l : List Char) (b : Bool), (∀ c ∈ l, p c = false) → collapseRunsAux p r l b = l := by
  intro l
  induction l with
  | nil => intro b _; rfl
  | cons a as ih =>
    intro b h
    unfold collapseRunsAux
    rw [h a (List.mem_cons_self _ _)]
    simp only [Bool.false_eq_true, if_false]
    rw [ih false (fun c hc => h c (List.mem_cons_of_mem _ hc))]

/-- No two adjacent hyphens survive `collapseHyphens`, and when the run
flag is set the head of the output is not a hyphen. -/
theorem collapseHyphens_chain :
    ∀ l : List Char,
      ((collapseRunsAux (fun c => c = '-') '-' l true).Chain'
          (fun a b => ¬(a = '-' ∧ b = '-')) ∧
        ∀ h ∈ (collapseRunsAux (fun c => c = '-') '-' l true).head?, ¬h = '-') ∧
      (collapseRunsAux (fun c => c = '-') '-' l false).Chain'
          (fun a b => ¬(a = '-' ∧ b = '-')) := by
  intro l
  induction l with
  | nil => exact ⟨⟨List.chain'_nil, by simp [collapseRunsAux]⟩, List.chain'_nil⟩
  | cons a as ih =>
    obtain ⟨⟨iht, ihh⟩, ihf⟩ := ih
    by_cases ha : a = '-'
    · constructor
      · constructor
        · simpa [collapseRunsAux, ha] using iht
        · intro h hh
          rw [show collapseRunsAux (fun c => c = '-') '-' (a :: as) true =
              collapseRunsAux (fun c => c = '-') '-' as true by
            simp [collapseRunsAux, ha]] at hh
          exact ihh h hh
      · rw [show collapseRunsAux (fun c => c = '-') '-' (a :: as) false =
            '-' :: collapseRunsAux (fun c => c = '-') '-' as true by
          simp [collapseRunsAux, ha]]
        rw [List.chain'_cons']
        exact ⟨fun y hy hc => ihh y hy hc.2, iht⟩
    · have hstep : ∀ b, collapseRunsAux (fun c => c = '-') '-' (a :: as) b =
          a :: collapseRunsAux (fun c => c = '-') '-' as false := by
        intro b
        simp [collapseRunsAux, ha]
      have hchain : (a :: collapseRunsAux (fun c => c = '-') '-' as false).Chain'
          (fun a b => ¬(a = '-' ∧ b = '-')) := by
        rw [List.chain'_cons']
        exact ⟨fun y _ hc => ha hc.1, ihf⟩
      refine ⟨⟨?_, ?_⟩, ?_⟩
      · rw [hstep true]; exact hchain
      · intro h hh
        rw [hstep true] at hh
        simp only [List.head?_cons, Option.mem_def, Option.some.injEq] at hh
        exact fun hc => ha (hh ▸ hc)
      · rw [hstep false]; exact hchain

/-- Identity of `collapseHyphens` on hyphen-run-free lists. -/
theorem collapseHyphens_id :
    ∀ l : List Char, l.Chain' (fun a b => ¬(a = '-' ∧ b = '-')) →
      (collapseRunsAux (fun c => c = '-') '-' l false = l ∧
        ((∀ h ∈ l.head?, ¬h = '-') → collapseRunsAux (fun c => c = '-') '-' l true = l)) := by
  intro l
  induction l with
  | nil => exact fun _ => ⟨rfl, fun _ => rfl⟩
  | cons a as ih =>
    intro hch
    rw [List.chain'_cons'] at hch
    obtain ⟨hhead, hch⟩ := hch
    obtain ⟨ihf, iht⟩ := ih hch
    by_cases ha : a = '-'
    · have hkey : collapseRunsAux (fun c => c = '-') '-' as true = as := by
        refine iht fun y hy hc => ?_
        exact hhead y hy ⟨ha, hc⟩
      constructor
      · subst ha
        simp [collapseRunsAux, hkey]
      · intro hcond
        exact absurd ha (hcond a (by simp))
    · constructor
      · simp [collapseRunsAux, ha, ihf]
      · intro _
        simp [collapseRunsAux, ha, ihf]

theorem head_dropWhile (p : Char → Bool) :
    ∀ l : List Char, ∀ h ∈ (l.dropWhile p).head?, p h = false := by
  intro l
  induction l with
  | nil => intro h hh; simp at hh
  | cons a as ih =>
    intro h hh
    rcases ha : p a with _ | _
    · rw [List.dropWhile_cons_of_neg (by simp [ha])] at hh
      simp only [List.head?_cons, Option.mem_def, Option.some.injEq] at hh
      exact hh ▸ ha
    · rw [List.dropWhile_cons_of_pos (by simp [ha])] at hh
      exact ih h hh

theorem dropWhile_isSuffix (p : Char → Bool) :
    ∀ l : List Char, l.dropWhile p <:+ l := by
  intro l
  induction l with
  | nil => exact List.suffix_refl _
  | cons a as ih =>
    rcases ha : p a with _ | _
    · rw [List.dropWhile_cons_of_neg (by simp [ha])]
    · rw [List.dropWhile_cons_of_pos (by simp [ha])]
      exact ih.trans (List.suffix_cons a as)

theorem dropWhile_eq_self_of_head (p : Char → Bool) (l : List Char)
    (h : ∀ x ∈ l.head?, p x = false) : l.dropWhile p = l := by
  cases l with
  | nil => rfl
  | cons a as =>
    exact List.dropWhile_cons_of_neg (by simp [h a (by simp)])

theorem trimRightP_isPrefix (p : Char → Bool) (l : List Char) : trimRightP p l <+: l := by
  obtain ⟨u, hu⟩ := dropWhile_isSuffix p l.reverse
  refine ⟨u.reverse, ?_⟩
  have := congrArg List.reverse hu
  simpa [trimRightP] using this

theorem getLast?_trimRightP (p : Char → Bool) (l : List Char) :
    ∀ z ∈ (trimRightP p l).getLast?, p z = false := by
  intro z hz
  unfold trimRightP at hz
  rw [List.getLast?_reverse] at hz
  exact head_dropWhile p l.reverse z hz

theorem trimRightP_eq_self (p : Char → Bool) (l : List Char)
    (h : ∀ z ∈ l.getLast?, p z = false) : trimRightP p l = l := by
  unfold trimRightP
  rw [dropWhile_eq_self_of_head p l.reverse (by
    intro x hx
    rw [List.head?_reverse] at hx
    exact h x hx)]
  exact List.reverse_reverse l

theorem isPrefix_head {y x : List Char} (h : y <+: x) {a : Char}
    (ha : y.head? = some a) : x.head? = some a := by
  obtain ⟨t, rfl⟩ := h
  cases y with
  | nil => simp at ha
  | cons b bs => simpa using ha

theorem trimHyphens_head (l : List Char) :
    ∀ h ∈ (trimHyphens l).head?, ¬h = '-' := by
  intro h hh
  have hpre := trimRightP_isPrefix (fun c => c = '-') (trimLeftP (fun c => c = '-') l)
  have hx := isPrefix_head hpre hh
  have := head_dropWhile (fun c => c = '-') l h hx
  simpa using this

theorem trimHyphens_getLast (l : List Char) :
    ∀ z ∈ (trimHyphens l).getLast?, ¬z = '-' := by
  intro z hz
  have := getLast?_trimRightP (fun c => c = '-') (trimLeftP (fun c => c = '-') l) z hz
  simpa using this

theorem trimHyphens_isInfix (l : List Char) : trimHyphens l <:+: l := by
  obtain ⟨t, ht⟩ := trimRightP_isPrefix (fun c => c = '-') (trimLeftP (fun c => c = '-') l)
  obtain ⟨u, hu⟩ := dropWhile_isSuffix (fun c => c = '-') l
  refine ⟨u, t, ?_⟩
  unfold trimHyphens
  rw [List.append_assoc, ht]
  exact hu

theorem trimHyphens_eq_self (l : List Char)
    (h1 : ∀ h ∈ l.head?, ¬h = '-') (h2 : ∀ z ∈ l.getLast?, ¬z = '-') :
    trimHyphens l = l := by
  unfold trimHyphens trimLeftP
  rw [dropWhile_eq_self_of_head _ l (by
    intro x hx
    simpa using h1 x hx)]
  exact trimRightP_eq_self _ l (by
    intro z hz
    simpa using h2 z hz)

theorem char_ne_of_toNat {c d : Char} (h : c.toNat ≠ d.toNat) : c ≠ d :=
  fun hh => h (congrArg Char.toNat hh)

theorem goodChar_dash : goodChar '-' = true := by decide

theorem goodChar_word_or_dash {c : Char} (h : goodChar c = true) :
    (isWordChar c || c = '-') = true := by
  unfold goodChar at h
  unfold isWordChar isAsciiAlpha
  rcases Bool.or_eq_true_iff.mp h with h | h
  · rcases Bool.or_eq_true_iff.mp h with h | h <;> simp [h]
  · simp [h]

theorem goodChar_not_ws_underscore {c : Char} (h : goodChar c = true) :
    (c.isWhitespace || c = '_') = false := by
  have hsp : (' ').toNat = 32 := rfl
  have htab : ('\t').toNat = 9 := rfl
  have hcr : ('\r').toNat = 13 := rfl
  have hlf : ('\n').toNat = 10 := rfl
  have hus : ('_').toNat = 95 := rfl
  rcases goodChar_facts h with ⟨a, b⟩ | ⟨a, b⟩ | a <;>
  · have w1 : c ≠ ' ' := char_ne_of_toNat (by omega)
    have w2 : c ≠ '\t' := char_ne_of_toNat (by omega)
    have w3 : c ≠ '\r' := char_ne_of_toNat (by omega)
    have w4 : c ≠ '\n' := char_ne_of_toNat (by omega)
    have w5 : c ≠ '_' := char_ne_of_toNat (by omega)
    simp [Char.isWhitespace, w1, w2, w3, w4, w5]

theorem word_kept_good {d : Char} (hw : isWordChar d = true) (hu : isAsciiUpper d = false)
    (hund : (d.isWhitespace || d = '_') = false) : goodChar d = true := by
  unfold isWordChar isAsciiAlpha at hw
  unfold goodChar
  rcases Bool.or_eq_true_iff.mp hw with h | h
  · rcases Bool.or_eq_true_iff.mp h with h | h
    · rcases Bool.or_eq_true_iff.mp h with h | h
      · simp [h]
      · rw [h] at hu; exact absurd hu (by simp)
    · simp [h]
  · rw [Bool.or_eq_false_iff] at hund
    exact absurd h (by simpa using hund.2)

theorem mem_replaceNonWord_jsLower (l : List Char) {d : Char}
    (hd : d ∈ replaceNonWord (jsLower l)) :
    d = '-' ∨ (isWordChar d = true ∧ isAsciiUpper d = false) := by
  unfold replaceNonWord at hd
  rw [List.mem_map] at hd
  obtain ⟨c, hc, rfl⟩ := hd
  unfold jsLower at hc
  rw [List.mem_map] at hc
  obtain ⟨c0, -, rfl⟩ := hc
  rcases hk : (isWordChar (jsLowerChar c0) || jsLowerChar c0 = '-') with _ | _
  · simp
  · rw [if_pos rfl]
    rcases Bool.or_eq_true_iff.mp hk with h | h
    · exact Or.inr ⟨h, isAsciiUpper_jsLowerChar c0⟩
    · exact Or.inl (by simpa using h)

theorem mem_collapseWs_good (l : List Char) {d : Char}
    (hd : d ∈ collapseWsUnderscore (replaceNonWord (jsLower l))) : goodChar d = true := by
  unfold collapseWsUnderscore collapseRuns at hd
  rcases mem_collapseRunsAux _ _ _ _ _ hd with rfl | ⟨hmem, hnp⟩
  · exact goodChar_dash
  · rcases mem_replaceNonWord_jsLower l hmem with rfl | ⟨hw, hu⟩
    · exact goodChar_dash
    · exact word_kept_good hw hu hnp

theorem mem_collapseHyphens_good (l : List Char) {d : Char}
    (hd : d ∈ collapseHyphens (collapseWsUnderscore (replaceNonWord (jsLower l)))) :
    goodChar d = true := by
  unfold collapseHyphens collapseRuns at hd
  rcases mem_collapseRunsAux _ _ _ _ _ hd with rfl | ⟨hmem, -⟩
  · exact goodChar_dash
  · exact mem_collapseWs_good l hmem

theorem normalizeNameL_normalized (l : List Char) : NormalizedL (normalizeNameL l) := by
  unfold normalizeNameL
  refine ⟨?_, ?_, trimHyphens_head _, trimHyphens_getLast _⟩
  · intro c hc
    exact mem_collapseHyphens_good l ((trimHyphens_isInfix _).subset hc)
  · exact List.Chain'.infix (collapseHyphens_chain _).2 (trimHyphens_isInfix _)

theorem map_id_of_mem (f : Char → Char) :
    ∀ l : List Char, (∀ c ∈ l, f c = c) → List.map f l = l := by
  intro l
  induction l with
  | nil => intro _; rfl
  | cons a as ih =>
    intro h
    rw [List.map_cons, h a (List.mem_cons_self _ _),
      ih fun c hc => h c (List.mem_cons_of_mem _ hc)]

theorem normalized_fixed (l : List Char) (h : NormalizedL l) : normalizeNameL l = l := by
  obtain ⟨hchars, hchain, hhead, hlast⟩ := h
  unfold normalizeNameL
  rw [show jsLower l = l from
    map_id_of_mem _ l fun c hc => jsLowerChar_eq_self (goodChar_not_upper (hchars c hc))]
  rw [show replaceNonWord l = l from
    map_id_of_mem _ l fun c hc => if_pos (goodChar_word_or_dash (hchars c hc))]
  rw [show collapseWsUnderscore l = l from
    collapseRunsAux_id _ _ l false fun c hc => goodChar_not_ws_underscore (hchars c hc)]
  rw [show collapseHyphens l = l from (collapseHyphens_id l hchain).1]
  exact trimHyphens_eq_self l hhead hlast

/-- C8 — For every input string `x`, `normalizeName` is idempotent:
`normalizeName (normalizeName x) = normalizeName x`. -/
theorem C8_normalizeName_idempotent (x : String) :
    DataProcessor.normalizeName (DataProcessor.normalizeName x) =
      DataProcessor.normalizeName x := by
  unfold DataProcessor.normalizeName
  congr 1
  exact normalized_fixed _ (normalizeNameL_normalized x.data)

/-! ### C4: repository-URL normalization equivalences -/

theorem containsSub_iff (pat : List Char) :
    ∀ l : List Char, containsSub pat l = true ↔ pat <:+: l := by
  intro l
  induction l with
  | nil =>
    unfold containsSub
    rw [List.isPrefixOf_iff_prefix]
    constructor
    · exact fun h => h.isInfix
    · rintro ⟨u, v, huv⟩
      rw [List.append_eq_nil] at huv
      obtain ⟨h1, h2⟩ := huv
      rw [List.append_eq_nil] at h1
      exact h1.2 ▸ List.prefix_refl _
  | cons c cs ih =>
    unfold containsSub
    rw [Bool.or_eq_true_iff, List.isPrefixOf_iff_prefix, ih]
    exact (List.infix_cons_iff).symm

theorem replaceFirst_fire (c : Char) (cs rest r : List Char) :
    replaceFirst (c :: cs) r ((c :: cs) ++ rest) = r ++ rest := by
  have hpre : (c :: cs).isPrefixOf ((c :: cs) ++ rest) = true :=
    List.isPrefixOf_iff_prefix.mpr ⟨rest, rfl⟩
  rw [show (c :: cs) ++ rest = c :: (cs ++ rest) from rfl]
  unfold replaceFirst
  rw [show c :: (cs ++ rest) = (c :: cs) ++ rest from rfl, hpre]
  simp only [if_true]
  rw [List.drop_left]

theorem replaceFirst_of_not_infix (pat r : List Char) :
    ∀ l : List Char, ¬ pat <:+: l → replaceFirst pat r l = l := by
  intro l
  induction l with
  | nil => intro _; rfl
  | cons c cs ih =>
    intro h
    unfold replaceFirst
    rcases hp : pat.isPrefixOf (c :: cs) with _ | _
    · simp only [Bool.false_eq_true, if_false]
      rw [ih fun hinf => h (hinf.trans ⟨[c], [], by simp⟩)]
    · exact absurd (List.isPrefixOf_iff_prefix.mp hp).isInfix h

theorem not_infix_of_colonFree {pat l : List Char} (hc : ':' ∈ pat)
    (hl : ∀ c ∈ l, c ≠ ':') : ¬ pat <:+: l := by
  rintro ⟨s, t, rfl⟩
  exact hl ':' (by simp [hc]) rfl

theorem infix_append_split {pat X Y : List Char} (h : pat <:+: X ++ Y) :
    pat <:+: X ∨ pat <:+: Y ∨
      ∃ k, 0 < k ∧ k < pat.length ∧ pat.take k <:+ X ∧ pat.drop k <+: Y := by
  induction X with
  | nil => exact Or.inr (Or.inl h)
  | cons x X' ih =>
    rw [List.cons_append, List.infix_cons_iff] at h
    rcases h with h | h
    · rw [show x :: (X' ++ Y) = (x :: X') ++ Y from rfl] at h
      by_cases hlen : pat.length ≤ (x :: X').length
      · left
        rw [List.prefix_iff_eq_take, List.take_append_eq_append_take,
          Nat.sub_eq_zero_of_le hlen, List.take_zero, List.append_nil] at h
        rw [h]
        exact (List.take_prefix _ _).isInfix
      · right; right
        refine ⟨(x :: X').length, by simp, by omega, ?_, ?_⟩
        · rw [List.prefix_iff_eq_take] at h
          have ht : pat.take (x :: X').length = x :: X' := by
            conv_lhs => rw [h]
            rw [List.take_take, min_eq_left (by omega), List.take_append_eq_append_take,
              Nat.sub_self, List.take_zero, List.append_nil, List.take_length]
          rw [ht]
        · rw [List.prefix_iff_eq_take] at h
          have hd : pat.drop (x :: X').length = Y.take (pat.length - (x :: X').length) := by
            conv_lhs => rw [h]
            rw [List.drop_take, List.drop_left]
          rw [hd]
          exact List.take_prefix _ _
    · rcases ih h with h | h | ⟨k, hk1, hk2, hk3, hk4⟩
      · exact Or.inl (h.trans ⟨[x], [], by simp⟩)
      · exact Or.inr (Or.inl h)
      · exact Or.inr (Or.inr ⟨k, hk1, hk2, hk3.trans (List.suffix_cons x X'), hk4⟩)

theorem stripSuffix_of_not_suffix (pat l : List Char) (h : ¬ pat <:+ l) :
    stripSuffix pat l = l := by
  unfold stripSuffix
  rw [if_neg fun hh => h (List.isSuffixOf_iff_suffix.mp hh)]

theorem stripSuffix_append (pat x : List Char) : stripSuffix pat (x ++ pat) = x := by
  unfold stripSuffix
  rw [if_pos (List.isSuffixOf_iff_suffix.mpr ⟨x, rfl⟩)]
  rw [List.length_append, Nat.add_sub_cancel, List.take_left]

theorem suffix_append_right {p X B : List Char} (h : p <:+ X ++ B)
    (hl : p.length ≤ B.length) : p <:+ B := by
  rw [← List.reverse_prefix] at h ⊢
  rw [List.reverse_append] at h
  rw [List.prefix_iff_eq_take, List.take_append_eq_append_take, List.length_reverse,
    Nat.sub_eq_zero_of_le (by rw [List.length_reverse]; exact hl),
    List.take_zero, List.append_nil] at h
  rw [h]
  exact List.take_prefix _ _

theorem getLast?_of_suffix {p l : List Char} (h : p <:+ l) (hp : p ≠ []) :
    l.getLast? = p.getLast? := by
  obtain ⟨u, rfl⟩ := h
  exact List.getLast?_append_of_ne_nil u hp

theorem infix_append_outer {pat B : List Char} (h : pat <:+: B) (X Y : List Char) :
    pat <:+: X ++ B ++ Y := by
  obtain ⟨u, v, rfl⟩ := h
  exact ⟨X ++ u, v ++ Y, by simp⟩

/-- `https://` does not occur in `http://` followed by colon-free text. -/
theorem not_infix_https_http {Y : List Char} (hY : ∀ c ∈ Y, c ≠ ':') :
    ¬ "https://".data <:+: "http://".data ++ Y := by
  intro h
  rcases infix_append_split h with h | h | ⟨k, hk1, hk2, hk3, hk4⟩
  · revert h; decide
  · obtain ⟨s, t, hst⟩ := h
    have hm : (':' : Char) ∈ Y := by
      rw [← hst]
      simp only [List.mem_append]
      exact Or.inl (Or.inr (by decide))
    exact hY ':' hm rfl
  · have hk2' : k < 8 := hk2
    interval_cases k <;> exact absurd hk3 (by decide)

theorem replaceFirst_fire_ne (pat rest r : List Char) (hp : pat ≠ []) :
    replaceFirst pat r (pat ++ rest) = r ++ rest := by
  cases pat with
  | nil => exact absurd rfl hp
  | cons c cs => exact replaceFirst_fire c cs rest r

/-- Removing the three scheme markers in sequence from a colon-free base
prefixed by (at most) one of the empty, `https://` or `http://` schemes
leaves exactly the base. -/
theorem threeReplaces_scheme (s : String) (hs : s = "" ∨ s = "https://" ∨ s = "http://")
    (Z : List Char) (hZ : ∀ c ∈ Z, c ≠ ':') :
    replaceFirst "git@github.com:".data []
      (replaceFirst "http://".data []
        (replaceFirst "https://".data [] (s.data ++ Z))) = Z := by
  have hz1 : replaceFirst "https://".data [] Z = Z :=
    replaceFirst_of_not_infix _ _ _ (not_infix_of_colonFree (by decide) hZ)
  have hz2 : replaceFirst "http://".data [] Z = Z :=
    replaceFirst_of_not_infix _ _ _ (not_infix_of_colonFree (by decide) hZ)
  have hz3 : replaceFirst "git@github.com:".data [] Z = Z :=
    replaceFirst_of_not_infix _ _ _ (not_infix_of_colonFree (by decide) hZ)
  rcases hs with rfl | rfl | rfl
  · rw [show ("" : String).data = [] from rfl, List.nil_append, hz1, hz2, hz3]
  · rw [show replaceFirst "https://".data [] ("https://".data ++ Z) = [] ++ Z from
      replaceFirst_fire_ne _ _ _ (by decide), List.nil_append, hz2, hz3]
  · rw [ replaceFirst_of_not_infix _ _ _ (not_infix_https_http hZ)]
    rw [show replaceFirst "http://".data [] ("http://".data ++ Z) = [] ++ Z from
      replaceFirst_fire_ne _ _ _ (by decide), List.nil_append, hz3]

theorem getLast?_append_singleton (l : List Char) (c : Char) :
    (l ++ [c]).getLast? = some c :=
  (getLast?_of_suffix ⟨l, rfl⟩ (by simp)).trans rfl

theorem not_suffix_dotgit_of_getLast {l : List Char} {a : Char}
    (hl : l.getLast? = some a) (hne : a ≠ 't') : ¬ ".git".data <:+ l := by
  intro h
  have := getLast?_of_suffix h (by decide)
  rw [hl] at this
  exact hne (Option.some.inj (this.trans rfl))

theorem not_suffix_slash_of_getLast {B : List Char}
    (hslash : ∀ z ∈ B.getLast?, z ≠ '/') : ¬ "/".data <:+ B := by
  intro h
  have hg := getLast?_of_suffix h (by decide)
  exact hslash '/' (by rw [hg]; rfl) rfl

/-- Core computation for C4: on any input whose lowercasing is an allowed
GitHub variant of the base `B`, the normalization pipeline returns `B`. -/
theorem normRepoL_core (B : List Char)
    (hgh : "github.com".data <:+: B)
    (hcolon : ∀ c ∈ B, c ≠ ':')
    (hslash : ∀ z ∈ B.getLast?, z ≠ '/')
    (hgit : ¬ (".git".data <:+ B))
    (s : String) (hs : s = "" ∨ s = "https://" ∨ s = "http://")
    (g t : String)
    (hgt : (g = "" ∧ t = "") ∨ (g = ".git" ∧ t = "") ∨ (g = "" ∧ t = "/"))
    (L : List Char) (hL : jsLower L = s.data ++ B ++ g.data ++ t.data) :
    normalizeRepositoryUrlL L = B := by
  have hBlen : 10 ≤ B.length := by
    have := hgh.length_le
    simpa using this
  have hcont : ∀ T' : List Char,
      containsSub "github.com".data (s.data ++ (B ++ T')) = true := by
    intro T'
    rw [containsSub_iff]
    obtain ⟨u1, v1, huv⟩ := hgh
    exact ⟨s.data ++ u1, v1 ++ T', by rw [← huv]; simp⟩
  have hgit4 : ¬ ".git".data <:+ s.data ++ B := fun h =>
    hgit (suffix_append_right h (by
      have : ".git".data.length = 4 := rfl
      omega))
  have hfinishB : stripSuffix "/".data (stripSuffix ".git".data B) = B := by
    rw [stripSuffix_of_not_suffix _ _ hgit, stripSuffix_of_not_suffix _ _
      (not_suffix_slash_of_getLast hslash)]
  unfold normalizeRepositoryUrlL
  dsimp only
  rcases hgt with ⟨rfl, rfl⟩ | ⟨rfl, rfl⟩ | ⟨rfl, rfl⟩
  · have hL' : jsLower L = s.data ++ (B ++ []) := by
      rw [List.append_nil]
      simpa using hL
    rw [hL', show stripSuffix ".git".data (s.data ++ (B ++ [])) = s.data ++ (B ++ []) from
      stripSuffix_of_not_suffix _ _ (by rw [List.append_nil]; exact hgit4)]
    rw [if_pos (hcont [])]
    rw [show s.data ++ (B ++ []) = s.data ++ (B ++ []) from rfl]
    rw [threeReplaces_scheme s hs (B ++ []) (by rw [List.append_nil]; exact hcolon)]
    rw [List.append_nil, hfinishB, stripSuffix_of_not_suffix _ _
      (not_suffix_slash_of_getLast hslash)]
  · have hL' : jsLower L = (s.data ++ B) ++ ".git".data := by
      simpa using hL
    rw [hL', stripSuffix_append]
    rw [show s.data ++ B = s.data ++ (B ++ []) from by rw [List.append_nil]] at hgit4 ⊢
    rw [if_pos (hcont [])]
    rw [threeReplaces_scheme s hs (B ++ []) (by rw [List.append_nil]; exact hcolon)]
    rw [List.append_nil, hfinishB, stripSuffix_of_not_suffix _ _
      (not_suffix_slash_of_getLast hslash)]
  · have hL' : jsLower L = s.data ++ (B ++ "/".data) := by
      rw [← List.append_assoc]
      simpa using hL
    have hlastSlash : (s.data ++ (B ++ "/".data)).getLast? = some '/' := by
      rw [← List.append_assoc]
      exact getLast?_append_singleton _ '/'
    rw [hL', stripSuffix_of_not_suffix _ _
      (not_suffix_dotgit_of_getLast hlastSlash (by decide))]
    rw [if_pos (hcont "/".data)]
    rw [threeReplaces_scheme s hs (B ++ "/".data)
      (by
        intro c hc
        rcases List.mem_append.mp hc with hc | hc
        · exact hcolon c hc
        · intro hh
          rw [hh] at hc
          simp at hc)]
    rw [stripSuffix_of_not_suffix _ _
      (not_suffix_dotgit_of_getLast (getLast?_append_singleton B '/') (by decide))]
    rw [stripSuffix_append "/".data B]
    exact stripSuffix_of_not_suffix _ _ (not_suffix_slash_of_getLast hslash)

/-- C4 (amended) — For every GitHub repository base `b` (containing
`github.com`, colon-free, lowercase, not ending in `/` or `.git`), every
URL string whose lowercasing is `b` prefixed by one of no scheme,
`https://` or `http://`, and suffixed by at most one of a trailing `.git`
or a trailing slash, normalizes to the same key `b`.  (Equivalently: any
two URL variants differing only by these schemes, by letter case, or by at
most one of the two suffixes receive the same key.)  The original claim
fails for non-GitHub hosts, for the `git@host:` SSH scheme, and when the
`.git` suffix and the trailing slash are combined; see the
counterexample. -/
theorem C4_normalizeRepositoryUrl_variants (b : String)
    (hgh : "github.com".data <:+: b.data)
    (hcolon : ∀ c ∈ b.data, c ≠ ':')
    (hslash : ∀ z ∈ b.data.getLast?, z ≠ '/')
    (hgit : ¬ (".git".data <:+ b.data))
    (s : String) (hs : s = "" ∨ s = "https://" ∨ s = "http://")
    (g t : String)
    (hgt : (g = "" ∧ t = "") ∨ (g = ".git" ∧ t = "") ∨ (g = "" ∧ t = "/"))
    (u : String) (hu : jsLower u.data = s.data ++ b.data ++ g.data ++ t.data) :
    DataProcessor.normalizeRepositoryUrl u = some b := by
  have hBlen : 10 ≤ b.data.length := by
    have := hgh.length_le
    simpa using this
  have hune : u ≠ "" := by
    intro hh
    subst hh
    have : jsLower ("" : String).data = [] := rfl
    rw [this] at hu
    have := congrArg List.length hu
    simp [List.length_append] at this
    have hlb : b.data.length = b.length := rfl
    omega
  unfold DataProcessor.normalizeRepositoryUrl
  rw [if_neg hune]
  exact congrArg (fun l => some (⟨l⟩ : String))
    (normRepoL_core b.data hgh hcolon hslash hgit s hs g t hgt u.data hu)

/-- C4 witness: `HTTPS://github.com/X/Y.git` (mixed case, scheme, `.git`)
normalizes to the key `github.com/x/y`. -/
theorem C4_normalizeRepositoryUrl_variants_witness :
    ("github.com".data <:+: ("github.com/x/y" : String).data) ∧
    DataProcessor.normalizeRepositoryUrl "HTTPS://github.com/X/Y.git" =
      some "github.com/x/y" :=
  ⟨by decide,
    C4_normalizeRepositoryUrl_variants "github.com/x/y"
      (by decide) (by decide) (by decide) (by decide)
      "https://" (Or.inr (Or.inl rfl))
      ".git" "" (Or.inr (Or.inl ⟨rfl, rfl⟩))
      "HTTPS://github.com/X/Y.git" (by decide)⟩

/-- C4 counterexample: the claim as stated is false on the code in three
ways.  (a) For a non-GitHub host, URLs differing only by scheme get
different keys.  (b) Even for GitHub, the `git@host:` SSH form yields
`x/y` — the code removes the `git@github.com:` prefix without restoring
`github.com/`, so it differs from the `https://` form's key.  (c) URLs
differing only by a trailing slash get different keys when the base ends
in `.git` (the `.git` strip happens before the slash strip). -/
theorem C4_counterexample_scheme_variants :
    DataProcessor.normalizeRepositoryUrl "https://gitlab.com/a/b" ≠
      DataProcessor.normalizeRepositoryUrl "http://gitlab.com/a/b" ∧
    DataProcessor.normalizeRepositoryUrl "git@github.com:x/y" ≠
      DataProcessor.normalizeRepositoryUrl "https://github.com/x/y" ∧
    DataProcessor.normalizeRepositoryUrl "https://github.com/x/y.git/" ≠
      DataProcessor.normalizeRepositoryUrl "https://github.com/x/y.git" :=
  ⟨by decide, by decide, by decide⟩

/-! ### C1: dedupe is idempotent across a store reset -/

/-- Merging never changes the normalized-name key of the stored record. -/
theorem recordNameKey_mergeServers (lc : String → String → Int) (e i : ServerRecord) :
    recordNameKey (Deduplicator.mergeServers lc e i) = recordNameKey e := by
  obtain ⟨h1, -, -, -, -, -, h7, -⟩ := mergeServers_frame lc e i
  unfold recordNameKey
  rw [h7, h1]

/-- Merging never changes the collapsed repository key of the stored
record. -/
theorem recordRepoKey_mergeServers (lc : String → String → Int) (e i : ServerRecord) :
    recordRepoKey (Deduplicator.mergeServers lc e i) = recordRepoKey e := by
  obtain ⟨-, -, -, -, -, -, -, h8⟩ := mergeServers_frame lc e i
  unfold recordRepoKey recordRepoUrl
  rw [h8]

/-- Merging never changes the key signature of the stored record. -/
theorem keysig_mergeServers (lc : String → String → Int) (e i : ServerRecord) :
    keysig (Deduplicator.mergeServers lc e i) = keysig e := by
  unfold keysig
  rw [recordNameKey_mergeServers, recordRepoKey_mergeServers]

/-- Merging never changes the composite key of the stored record. -/
theorem compositeKey_mergeServers (lc : String → String → Int) (e i : ServerRecord) :
    compositeKey (Deduplicator.mergeServers lc e i) = compositeKey e := by
  obtain ⟨-, -, -, -, -, h6, -, -⟩ := mergeServers_frame lc e i
  unfold compositeKey
  rw [h6, recordNameKey_mergeServers]

/-- Records with equal composite keys `source:normalizedName` have equal
normalized-name keys (the three source tags start with distinct letters,
so the colon-joined key determines both parts). -/
theorem compositeKey_inj_nameKey {r r' : ServerRecord}
    (h : compositeKey r = compositeKey r') : recordNameKey r = recordNameKey r' := by
  unfold compositeKey at h
  have hd := congrArg String.data h
  simp only [String.data_append] at hd
  have e1 : (Source.key .github).data = ['g', 'i', 't', 'h', 'u', 'b'] := rfl
  have e2 : (Source.key .npm).data = ['n', 'p', 'm'] := rfl
  have e3 : (Source.key .pypi).data = ['p', 'y', 'p', 'i'] := rfl
  have ec : ((":" : String)).data = [':'] := rfl
  apply String.ext
  cases hs : r.source <;> cases hs' : r'.source <;> rw [hs, hs'] at hd <;>
    simp only [e1, e2, e3, ec, List.cons_append, List.nil_append, List.cons.injEq,
      eq_self_iff_true, true_and] at hd <;>
    first
      | exact hd
      | exact absurd hd.1 (by decide)

/-- The stored record of the insert arm. -/
theorem insertState_serverMap (st : DeduplicationState) (server : ServerRecord) :
    (insertState st server).serverMap =
      setA st.serverMap (compositeKey server) server := rfl

/-- The name-map entry of the insert arm. -/
theorem insertState_normalizedNames (st : DeduplicationState) (server : ServerRecord) :
    (insertState st server).normalizedNames =
      setA st.normalizedNames (recordNameKey server) (compositeKey server) := rfl

/-- When the name check missed and the repository key maps to a truthy key
holding a live record, the repository fallback merges into that record. -/
theorem dedupeStepRepo_merge (lc : String → String → Int) (st : DeduplicationState)
    (em : List String) (d : Nat) (server : ServerRecord) (ru k2 : String) (ex : ServerRecord)
    (hr : recordRepoKey server = some ru)
    (hru : lookupA st.repositoryUrls ru = some k2)
    (hne : k2 ≠ "") (hex : lookupA st.serverMap k2 = some ex) :
    Deduplicator.dedupeStepRepo lc st em d server =
      ({ st with serverMap := setA st.serverMap k2 (Deduplicator.mergeServers lc ex server) },
       em, d + 1) := by
  have hru0 : recordRepoUrl server = some ru ∧ ru ≠ "" := by
    unfold recordRepoKey at hr
    cases h : recordRepoUrl server with
    | none => rw [h] at hr; cases hr
    | some ru' =>
      rw [h] at hr
      dsimp only at hr
      by_cases he : ru' = ""
      · rw [if_pos he] at hr; cases hr
      · rw [if_neg he] at hr
        obtain rfl := Option.some.inj hr
        exact ⟨rfl, he⟩
  obtain ⟨hru0, hne0⟩ := hru0
  unfold Deduplicator.dedupeStepRepo
  dsimp only
  rw [hru0]
  dsimp only
  rw [if_pos (by simp [hasA, hru, hne0]), hru]
  dsimp only
  rw [if_pos hne, hex]

/-- Under store well-formedness, every iteration either merges into a
record live in `serverMap`, or finds both its name key and its repository
key fresh and inserts. -/
theorem dedupeStep_cases (lc : String → String → Int) (st : DeduplicationState)
    (em : List String) (d : Nat) (server : ServerRecord) (hwf : WFStore st) :
    (∃ ek ex, lookupA st.serverMap ek = some ex ∧
      Deduplicator.dedupeStep lc (st, em, d) server =
        ({ st with serverMap := setA st.serverMap ek (Deduplicator.mergeServers lc ex server) },
         em, d + 1)) ∨
    (lookupA st.normalizedNames (recordNameKey server) = none ∧
     (∀ ru, recordRepoKey server = some ru → lookupA st.repositoryUrls ru = none) ∧
     Deduplicator.dedupeStep lc (st, em, d) server =
       (insertState st server, em ++ [compositeKey server], d)) := by
  cases hn : lookupA st.normalizedNames (recordNameKey server) with
  | some k =>
    obtain ⟨hkne, hlive⟩ := hwf.1 _ (lookupA_mem hn)
    obtain ⟨ex, hex⟩ := Option.isSome_iff_exists.mp hlive
    exact Or.inl ⟨k, ex, hex, dedupeStep_merge_name lc st em d server k ex hn hkne hex⟩
  | none =>
    cases hr : recordRepoKey server with
    | none =>
      have hcond : ∀ ru, recordRepoKey server = some ru → lookupA st.repositoryUrls ru = none := by
        intro ru hru
        rw [hr] at hru
        cases hru
      refine Or.inr ⟨rfl, ?_, dedupeStep_insert lc st em d server hn hcond⟩
      intro ru hru
      cases hru
    | some ru =>
      cases hru : lookupA st.repositoryUrls ru with
      | none =>
        have hcond : ∀ ru2, recordRepoKey server = some ru2 →
            lookupA st.repositoryUrls ru2 = none := by
          intro ru2 hru2
          rw [hr] at hru2
          obtain rfl := Option.some.inj hru2
          exact hru
        refine Or.inr ⟨rfl, ?_, dedupeStep_insert lc st em d server hn hcond⟩
        intro ru2 hru2
        obtain rfl := Option.some.inj hru2
        exact hru
      | some k2 =>
        obtain ⟨hkne, hlive⟩ := hwf.2 _ (lookupA_mem hru)
        obtain ⟨ex, hex⟩ := Option.isSome_iff_exists.mp hlive
        refine Or.inl ⟨k2, ex, hex, ?_⟩
        unfold Deduplicator.dedupeStep
        dsimp only
        rw [if_neg (by simp [hasA, hn])]
        exact dedupeStepRepo_merge lc st em d server ru k2 ex hr hru hkne hex

/-- Updating the store at a live key with a record of the same key
signature leaves the emitted survivors' signatures unchanged. -/
theorem map_keysig_filterMap_setA (em : List String) (smap : List (String × ServerRecord))
    (ek : String) (ex merged : ServerRecord)
    (hex : lookupA smap ek = some ex) (hsig : keysig merged = keysig ex) :
    (List.filterMap (lookupA (setA smap ek merged)) em).map keysig =
      (List.filterMap (lookupA smap) em).map keysig := by
  rw [List.map_filterMap, List.map_filterMap]
  apply List.filterMap_congr
  intro k _
  by_cases h : k = ek
  · subst h
    rw [lookupA_setA_self, hex]
    simp [hsig]
  · rw [lookupA_setA_ne _ h]

/-- One iteration of `deduplicate` preserves the run invariant. -/
theorem RunInv_dedupeStep (lc : String → String → Int) (st : DeduplicationState)
    (em : List String) (d : Nat) (server : ServerRecord) (h : RunInv st em) :
    RunInv (Deduplicator.dedupeStep lc (st, em, d) server).1
      (Deduplicator.dedupeStep lc (st, em, d) server).2.1 := by
  obtain ⟨hwf, hlive, hpair⟩ := h
  rcases dedupeStep_cases lc st em d server hwf with ⟨ek, ex, hex, heq⟩ | ⟨hn, hr, heq⟩ <;>
    rw [heq] <;> dsimp only
  · refine ⟨WFStore_mergeAt st ek _ hwf, ?_, ?_⟩
    · intro k hk
      obtain ⟨r, hlk, hck, hnn, hrr⟩ := hlive k hk
      by_cases hke : k = ek
      · subst hke
        obtain rfl : r = ex := Option.some.inj (hlk.symm.trans hex)
        refine ⟨Deduplicator.mergeServers lc r server, lookupA_setA_self _ _ _, ?_, ?_, ?_⟩
        · rw [compositeKey_mergeServers]
          exact hck
        · rw [recordNameKey_mergeServers]
          exact hnn
        · rw [recordRepoKey_mergeServers]
          exact hrr
      · refine ⟨r, ?_, hck, hnn, hrr⟩
        rw [lookupA_setA_ne _ hke]
        exact hlk
    · rw [map_keysig_filterMap_setA em st.serverMap ek ex _ hex (keysig_mergeServers lc ex server)]
      exact hpair
  · have hfresh : ∀ k ∈ em, k ≠ compositeKey server := by
      intro k hk hkc
      obtain ⟨r, hlk, hck, hnn, hrr⟩ := hlive k hk
      have hnk : recordNameKey r = recordNameKey server :=
        compositeKey_inj_nameKey (hck.symm.trans hkc)
      rw [hnk, hn] at hnn
      simp at hnn
    refine ⟨WFStore_insert st server hwf, ?_, ?_⟩
    · intro k hk
      rcases List.mem_append.mp hk with hk | hk
      · obtain ⟨r, hlk, hck, hnn, hrr⟩ := hlive k hk
        refine ⟨r, ?_, hck, ?_, ?_⟩
        · rw [insertState_serverMap, lookupA_setA_ne _ (hfresh k hk)]
          exact hlk
        · rw [insertState_normalizedNames]
          exact isSome_lookupA_setA _ _ _ _ hnn
        · intro ru hru
          rw [insertState_repositoryUrls]
          cases hcr : recordRepoKey server with
          | none => exact hrr ru hru
          | some ru0 =>
            dsimp only
            exact isSome_lookupA_setA _ _ _ _ (hrr ru hru)
      · have hkc : k = compositeKey server := by simpa using hk
        subst hkc
        refine ⟨server, ?_, rfl, ?_, ?_⟩
        · rw [insertState_serverMap, lookupA_setA_self]
        · rw [insertState_normalizedNames, lookupA_setA_self]
          rfl
        · intro ru hru
          rw [insertState_repositoryUrls, hru]
          dsimp only
          rw [lookupA_setA_self]
          rfl
    · rw [insertState_serverMap, List.filterMap_append]
      have h2 : List.filterMap (lookupA (setA st.serverMap (compositeKey server) server))
          [compositeKey server] = [server] := by
        simp [List.filterMap_cons, lookupA_setA_self]
      have h1 : List.filterMap (lookupA (setA st.serverMap (compositeKey server) server)) em =
          List.filterMap (lookupA st.serverMap) em := by
        apply List.filterMap_congr
        intro k hk
        exact lookupA_setA_ne _ (hfresh k hk) _
      rw [h1, h2, List.map_append, List.pairwise_append]
      refine ⟨hpair, by simp, ?_⟩
      intro a ha b hb
      have hb' : b = keysig server := by simpa using hb
      subst hb'
      obtain ⟨r, hrS, rfl⟩ := List.mem_map.mp ha
      obtain ⟨k, hkem, hfk⟩ := List.mem_filterMap.mp hrS
      obtain ⟨r', hlk, hck, hnn, hrr⟩ := hlive k hkem
      obtain rfl : r' = r := Option.some.inj (hlk.symm.trans hfk)
      refine ⟨?_, ?_⟩
      · intro hEq
        have hEq' : recordNameKey r' = recordNameKey server := hEq
        rw [hEq', hn] at hnn
        simp at hnn
      · intro a2 b2 ha2 hb2 hab
        have ha2' : recordRepoKey r' = some a2 := ha2
        have hb2' : recordRepoKey server = some b2 := hb2
        have hx := hrr a2 ha2'
        rw [hab, hr b2 hb2'] at hx
        simp at hx

/-- The run invariant holds along the whole fold. -/
theorem RunInv_foldl (lc : String → String → Int) (l : List ServerRecord) :
    ∀ acc : DeduplicationState × List String × Nat, RunInv acc.1 acc.2.1 →
      RunInv (List.foldl (Deduplicator.dedupeStep lc) acc l).1
        (List.foldl (Deduplicator.dedupeStep lc) acc l).2.1 := by
  induction l with
  | nil => intro acc h; exact h
  | cons server rest ih =>
    intro acc h
    obtain ⟨st, em, d⟩ := acc
    exact ih _ (RunInv_dedupeStep lc st em d server h)

/-- The run invariant holds at a fresh store with nothing emitted. -/
theorem RunInv_init (runId ts : String) (mode : UpdateMode) :
    RunInv (Deduplicator.init runId ts mode) [] := by
  refine ⟨WFStore_init runId ts mode, ?_, ?_⟩
  · intro k hk
    cases hk
  · simp

/-- A list of keys whose lookups return exactly the given records
filter-maps back to those records. -/
theorem filterMap_eq_of_forall2 {α β : Type} (f : β → Option α) :
    ∀ (rs : List α) (ks : List β),
      List.Forall₂ (fun r k => f k = some r) rs ks → ks.filterMap f = rs := by
  intro rs ks h
  induction h with
  | nil => rfl
  | cons h1 _ ih => simp [List.filterMap_cons, h1, ih]

/-- When every incoming record's name and repository keys are fresh for
the store and the records' key signatures are pairwise collision-free,
the `deduplicate` fold inserts every record in order: it emits all the
composite keys, leaves every other `serverMap` key untouched, and each
emitted key holds its own record in the final store. -/
theorem foldl_insert_all (lc : String → String → Int) :
    ∀ (rs : List ServerRecord) (st : DeduplicationState) (em : List String) (d : Nat),
      (∀ r ∈ rs, lookupA st.normalizedNames (recordNameKey r) = none) →
      (∀ r ∈ rs, ∀ ru, recordRepoKey r = some ru → lookupA st.repositoryUrls ru = none) →
      (rs.map keysig).Pairwise SigFresh →
      (List.foldl (Deduplicator.dedupeStep lc) (st, em, d) rs).2.1 =
        em ++ rs.map compositeKey ∧
      (∀ k, k ∉ rs.map compositeKey →
        lookupA (List.foldl (Deduplicator.dedupeStep lc) (st, em, d) rs).1.serverMap k =
          lookupA st.serverMap k) ∧
      List.Forall₂
        (fun r k =>
          lookupA (List.foldl (Deduplicator.dedupeStep lc) (st, em, d) rs).1.serverMap k =
            some r)
        rs (rs.map compositeKey) := by
  intro rs
  induction rs with
  | nil =>
    intro st em d _ _ _
    exact ⟨by simp, fun k _ => rfl, List.Forall₂.nil⟩
  | cons r0 rest ih =>
    intro st em d hN hR hpair
    have hstep := dedupeStep_insert lc st em d r0
      (hN r0 (List.mem_cons_self r0 rest))
      (fun ru hru => hR r0 (List.mem_cons_self r0 rest) ru hru)
    rw [List.foldl_cons, hstep]
    rw [List.map_cons, List.pairwise_cons] at hpair
    obtain ⟨hhead, hpair'⟩ := hpair
    have hN' : ∀ r ∈ rest,
        lookupA (insertState st r0).normalizedNames (recordNameKey r) = none := by
      intro r hr2
      rw [insertState_normalizedNames]
      have hd0 := (hhead (keysig r) (List.mem_map_of_mem keysig hr2)).1
      have hne : recordNameKey r ≠ recordNameKey r0 := fun hEq => hd0 hEq.symm
      rw [lookupA_setA_ne _ hne]
      exact hN r (List.mem_cons_of_mem r0 hr2)
    have hR' : ∀ r ∈ rest, ∀ ru, recordRepoKey r = some ru →
        lookupA (insertState st r0).repositoryUrls ru = none := by
      intro r hr2 ru hru
      rw [insertState_repositoryUrls]
      cases hcr : recordRepoKey r0 with
      | none => exact hR r (List.mem_cons_of_mem r0 hr2) ru hru
      | some ru0 =>
        dsimp only
        have hd0 := (hhead (keysig r) (List.mem_map_of_mem keysig hr2)).2 ru0 ru hcr hru
        have hne : ru ≠ ru0 := fun hEq => hd0 hEq.symm
        rw [lookupA_setA_ne _ hne]
        exact hR r (List.mem_cons_of_mem r0 hr2) ru hru
    obtain ⟨hem, hpres, hfa⟩ := ih (insertState st r0) (em ++ [compositeKey r0]) d hN' hR' hpair'
    have hk0 : compositeKey r0 ∉ rest.map compositeKey := by
      intro hmem
      obtain ⟨r, hr2, hEq⟩ := List.mem_map.mp hmem
      have hnk : recordNameKey r = recordNameKey r0 := compositeKey_inj_nameKey hEq
      exact (hhead (keysig r) (List.mem_map_of_mem keysig hr2)).1 hnk.symm
    refine ⟨?_, ?_, ?_⟩
    · rw [hem, List.map_cons, List.append_assoc]
      rfl
    · intro k hk
      rw [List.map_cons] at hk
      have hk1 : k ≠ compositeKey r0 := by
        intro hEq
        exact hk (by rw [hEq]; exact List.mem_cons_self _ _)
      have hk2 : k ∉ rest.map compositeKey := fun hmem => hk (List.mem_cons_of_mem _ hmem)
      rw [hpres k hk2, insertState_serverMap, lookupA_setA_ne _ hk1]
    · rw [List.map_cons]
      refine List.Forall₂.cons ?_ hfa
      rw [hpres (compositeKey r0) hk0, insertState_serverMap, lookupA_setA_self]

/-- Feeding any sequence of records with pairwise collision-free key
signatures through `deduplicate` against a fresh store returns it
unchanged. -/
theorem dedupeRecords_fresh_id (lc : String → String → Int) (runId ts : String)
    (mode : UpdateMode) (S : List ServerRecord)
    (hpair : (S.map keysig).Pairwise SigFresh) :
    (Deduplicator.dedupeRecords lc (Deduplicator.init runId ts mode) S).2.1 = S := by
  obtain ⟨hem, hpres, hfa⟩ := foldl_insert_all lc S (Deduplicator.init runId ts mode) [] 0
    (fun r _ => rfl) (fun r _ ru _ => rfl) hpair
  show (List.foldl (Deduplicator.dedupeStep lc)
        (Deduplicator.init runId ts mode, [], 0) S).2.1.filterMap
      (lookupA (List.foldl (Deduplicator.dedupeStep lc)
        (Deduplicator.init runId ts mode, [], 0) S).1.serverMap) = S
  rw [hem, List.nil_append]
  exact filterMap_eq_of_forall2 _ S (S.map compositeKey) hfa

/-- C1 — Dedupe is idempotent across a store reset: for every ordered
sequence of server records, if running `deduplicate` on a fresh
(empty, full-mode) store yields the survivor sequence `S`, then running
`deduplicate` on `S` against another fresh store returns exactly the
sequence `S`, unchanged. -/
theorem C1_dedupe_idempotent_across_reset (lc : String → String → Int)
    (runId1 ts1 runId2 ts2 : String) (servers : List ServerRecord) :
    (Deduplicator.dedupeRecords lc (Deduplicator.init runId2 ts2 .full)
        (Deduplicator.dedupeRecords lc (Deduplicator.init runId1 ts1 .full) servers).2.1).2.1 =
      (Deduplicator.dedupeRecords lc (Deduplicator.init runId1 ts1 .full) servers).2.1 := by
  have hinv := RunInv_foldl lc servers (Deduplicator.init runId1 ts1 .full, [], 0)
    (RunInv_init runId1 ts1 .full)
  exact dedupeRecords_fresh_id lc runId2 ts2 .full _ hinv.2.2

end MCPRegistry
